import Mathlib

/-!
# Verification of the CPU-profile computation core

Shallow embedding of the profile-visualizer computation core:

* `src/src/cpu/model.ts` — `buildModel`, `computeAggregateTime`,
  `ensureSourceLocations`, `getBestLocation`, `categorize`;
* `src/unnamed/part_000` — `BottomUpNode.addNode`, `processNode`,
  `createBottomUpGraph`;
* `src/unnamed/part_001` — `IColumn`, `LocationAccessor`, `buildColumns`.

JavaScript numbers holding times are embedded as `Int` (the profiles carry
integral microsecond values); JS `undefined`-able fields become `Option`.
JS in-place mutation is embedded by explicit state passing, and the
unbounded recursions of the source (`computeAggregateTime`, the parent
walks) are embedded with an explicit fuel argument that is chosen large
enough that it is never exhausted on the well-formed inputs the theorems
quantify over.

The two pure string utilities imported from `../common/pathUtils`
(`properRelative`, `maybeFileUrlToPath`) are external collaborators of the
core; every definition that needs them takes them as explicit function
parameters, and all theorems hold for arbitrary choices of them.
-/

namespace ProfileCore

/-- Category of call frames (`Category` in model.ts). -/
inductive Category where
  | System
  | User
  | Module
deriving DecidableEq, Repr, Inhabited

/-- `Cdp.Runtime.CallFrame`: the fields used by the core. -/
structure CallFrame where
  functionName : String
  scriptId : String
  url : String
  lineNumber : Int
  columnNumber : Int
deriving DecidableEq, Repr, Inhabited

/-- The `source` record of an `ISourceLocation` (Dap.Source fields used here). -/
structure SourceRef where
  name : Option String
  path : Option String
  sourceReference : Nat
deriving DecidableEq, Repr, Inhabited

/-- `ISourceLocation`. -/
structure SourceLocation where
  lineNumber : Int
  columnNumber : Int
  source : SourceRef
deriving DecidableEq, Repr, Inhabited

/-- `ISourceLocation & { relativePath?: string }`, the result of `getBestLocation`. -/
structure BestLocation extends SourceLocation where
  relativePath : Option String
deriving DecidableEq, Repr, Inhabited

/-- `IAnnotationLocation`: a call frame together with its candidate source locations. -/
structure AnnotationLocation where
  callFrame : CallFrame
  locations : List SourceLocation
deriving DecidableEq, Repr, Inhabited

/-- A raw `positionTicks` entry (`ICpuProfileNode.positionTicks`); the
`startLocationId`/`endLocationId` fields are absent in raw V8 output and are
filled in by `ensureSourceLocations` (or supplied by `$vscode` profiles). -/
structure RawPositionTick where
  line : Int
  ticks : Int
  startLocationId : Option Nat
  endLocationId : Option Nat
deriving DecidableEq, Repr, Inhabited

/-- A raw profile node (`ICpuProfileNode`): 1-based `id`, call frame, optional
children list, optional position ticks, optional precomputed location id. -/
structure RawNode where
  id : Nat
  callFrame : CallFrame
  children : Option (List Nat)
  positionTicks : Option (List RawPositionTick)
  locationId : Option Nat
deriving DecidableEq, Repr, Inhabited

/-- The `$vscode` metadata block of a generated profile. -/
structure VsCodeAnnotations where
  rootPath : Option String
  locations : List AnnotationLocation
deriving DecidableEq, Repr, Inhabited

/-- `ICpuProfileRaw`: the caller-supplied raw profile.  The `$vscode` field is
named `vscode` here (`$` is not a Lean identifier character). -/
structure RawProfile where
  nodes : List RawNode
  samples : Option (List Nat)
  timeDeltas : Option (List Int)
  startTime : Int
  endTime : Int
  vscode : Option VsCodeAnnotations
deriving DecidableEq, Repr, Inhabited

/-- `IComputedNode`. -/
structure IComputedNode where
  id : Nat
  selfTime : Int
  aggregateTime : Int
  children : List Nat
  parent : Option Nat
  locationId : Nat
deriving DecidableEq, Repr, Inhabited

/-- `ILocation`. -/
structure ILocation where
  id : Nat
  selfTime : Int
  aggregateTime : Int
  ticks : Int
  category : Category
  callFrame : CallFrame
  src : Option BestLocation
deriving DecidableEq, Repr, Inhabited

/-- `IProfileModel`: the result of `buildModel`. -/
structure IProfileModel where
  nodes : List IComputedNode
  locations : List ILocation
  samples : List Nat
  timeDeltas : List Int
  rootPath : Option String
  duration : Int
deriving DecidableEq, Repr, Inhabited

/-- Update the `i`-th element of a list in place, as JS `l[i].f = …` does;
out-of-range indices leave the list unchanged. -/
def listUpd [Inhabited α] (l : List α) (i : Nat) (f : α → α) : List α :=
  l.set i (f (l.getD i default))

/-! ## model.ts: location resolution (`ensureSourceLocations`) -/

/-- The dedup key of `getLocationIdFor`:
`[functionName, url, scriptId, lineNumber, columnNumber].join(':')`. -/
def callFrameRef (cf : CallFrame) : String :=
  cf.functionName ++ ":" ++ cf.url ++ ":" ++ cf.scriptId ++ ":" ++
    toString cf.lineNumber ++ ":" ++ toString cf.columnNumber

/-- One entry of the `locationsByRef` map.  `fromNode` records which raw
node's call-frame *object* was registered for this key (heap aliasing:
`categorize` later mutates that object in place, which is visible through
the raw profile); `none` for the fresh position-tick call frames. -/
structure LocEntry where
  id : Nat
  callFrame : CallFrame
  location : SourceLocation
  fromNode : Option Nat
deriving DecidableEq, Repr, Inhabited

/-- `getLocationIdFor` of `ensureSourceLocations`: look the call frame up in
the map, or register it with the next dense id (ids are `0, 1, 2, …` in
insertion order, so the association list is kept in id order). -/
def getLocationIdFor (mfp : String → String) (acc : List (String × LocEntry))
    (fromNode : Option Nat) (cf : CallFrame) : Nat × List (String × LocEntry) :=
  let ref := callFrameRef cf
  match acc.lookup ref with
  | some e => (e.id, acc)
  | none =>
    let id := acc.length
    (id, acc ++ [(ref,
      { id
        callFrame := cf
        location :=
          { lineNumber := cf.lineNumber
            columnNumber := cf.columnNumber
            source := { name := some (mfp cf.url), path := some (mfp cf.url), sourceReference := 0 } }
        fromNode })])

/-- The per-node body of the `ensureSourceLocations` loop: assign the node's
`locationId` and rewrite its `positionTicks`, registering the two synthetic
line-granularity locations of each tick (source lines there are 1-based,
hence the `tick.line - 1` / `tick.line` shift, both at column 0). -/
def annotateNode (mfp : String → String) (acc : List (String × LocEntry))
    (j : Nat) (node : RawNode) : List (String × LocEntry) × RawNode :=
  let r1 := getLocationIdFor mfp acc (some j) node.callFrame
  match node.positionTicks with
  | none => (r1.2, { node with locationId := some r1.1 })
  | some ticks =>
    let r2 := ticks.foldl
      (fun (st : List (String × LocEntry) × List RawPositionTick) tick =>
        let s := getLocationIdFor mfp st.1 none
          { node.callFrame with lineNumber := tick.line - 1, columnNumber := 0 }
        let e := getLocationIdFor mfp s.2 none
          { node.callFrame with lineNumber := tick.line, columnNumber := 0 }
        (e.2, st.2 ++ [{ tick with startLocationId := some s.1, endLocationId := some e.1 }]))
      (r1.2, [])
    (r2.1, { node with locationId := some r1.1, positionTicks := some r2.2 })

/-- Result of `ensureSourceLocations`: the annotation list plus the profile
after its in-place mutation of the raw nodes, plus (for the no-`$vscode`
branch) the per-annotation alias tag saying which raw node's call-frame
object each annotation's `callFrame` is. -/
structure EnsureResult where
  annotations : List AnnotationLocation
  profile : RawProfile
  tags : List (Option Nat)
deriving Repr

/-- `ensureSourceLocations`.  With `$vscode` present the precomputed
annotations are returned unchanged; otherwise locations are deduplicated on
the fly and each raw node is mutated (`locationId`, `positionTicks`).
The source sorts the map entries by id before returning, but ids are
assigned densely in insertion order, so that sort is the identity and the
insertion order is kept here. -/
def ensureSourceLocations (mfp : String → String) (profile : RawProfile) : EnsureResult :=
  match profile.vscode with
  | some v => { annotations := v.locations, profile := profile, tags := [] }
  | none =>
    let st := profile.nodes.enum.foldl
      (fun (st : List (String × LocEntry) × List RawNode) p =>
        let r := annotateNode mfp st.1 p.1 p.2
        (r.1, st.2 ++ [r.2]))
      ([], [])
    { annotations := st.1.map fun e => { locations := [e.2.location], callFrame := e.2.callFrame }
      profile := { profile with nodes := st.2 }
      tags := st.1.map fun e => e.2.fromNode }

/-! ## model.ts: `getBestLocation` and `categorize` -/

/-- `getBestLocation`: prefer an on-disk candidate (truthy `source.path`,
`sourceReference === 0`), computing a path relative to the configured root
path when one is present (the JS truthiness test makes an empty root path
count as absent); otherwise fall back to the first candidate. -/
def getBestLocation (properRelative : String → String → String)
    (profile : RawProfile) (candidates : List SourceLocation) : Option BestLocation :=
  match candidates.find? fun c => c.source.path.getD "" ≠ "" && c.source.sourceReference == 0 with
  | none => candidates.head?.map fun c => { toSourceLocation := c, relativePath := none }
  | some onDisk =>
    let rp := (profile.vscode.bind fun v => v.rootPath).getD ""
    some { toSourceLocation := onDisk
           relativePath := if rp ≠ "" then some (properRelative rp (onDisk.source.path.getD "")) else none }

/-- Does `p` lead the character list `l` (i.e. is it a leading segment)? -/
def charsLead : List Char → List Char → Bool
  | _, [] => true
  | [], _ :: _ => false
  | c :: l, d :: p => c == d && charsLead l p

/-- Does the character list `l` contain `p` as a contiguous segment? -/
def charsHave : List Char → List Char → Bool
  | [], p => p.isEmpty
  | c :: l, p => charsLead (c :: l) p || charsHave l p

/-- JS `haystack.includes(needle)` (substring test). -/
def strIncludes (haystack needle : String) : Bool :=
  charsHave haystack.toList needle.toList

/-- The in-place rewrite `callFrame.functionName = callFrame.functionName || '(anonymous)'`
performed by `categorize`. -/
def anonymize (cf : CallFrame) : CallFrame :=
  { cf with functionName := if cf.functionName = "" then "(anonymous)" else cf.functionName }

/-- `categorize`: returns the category together with the mutated call frame
(the source mutates its argument in place). -/
def categorize (callFrame : CallFrame) (src : Option BestLocation) : Category × CallFrame :=
  let cf := anonymize callFrame
  if cf.lineNumber < 0 then (Category.System, cf)
  else if strIncludes cf.url "node_modules" ∨ src.isNone then (Category.Module, cf)
  else (Category.User, cf)

/-! ## model.ts: `computeAggregateTime` and the node passes of `buildModel` -/

/-- The placeholder for a hole of the JS `new Array(n)` node table (reading a
hole would throw in JS; the theorems only quantify over profiles whose node
ids fill every slot). -/
def defaultCNode : IComputedNode :=
  { id := 0, selfTime := 0, aggregateTime := 0, children := [], parent := none, locationId := 0 }

instance : Inhabited IComputedNode := ⟨defaultCNode⟩

/-- The `for (const child of row.children)` summation of
`computeAggregateTime`, abstracted over the recursive call. -/
def childAggregatesWith (rec : Nat → List IComputedNode → Int × List IComputedNode) :
    List Nat → List IComputedNode → Int × List IComputedNode
  | [], nodes => (0, nodes)
  | c :: rest, nodes =>
    let r := rec c nodes
    let r2 := childAggregatesWith rec rest r.2
    (r.1 + r2.1, r2.2)

/-- `computeAggregateTime`: memoized post-order aggregation.  A node whose
cached `aggregateTime` is non-zero (JS truthiness) is returned as-is;
otherwise the children are summed recursively and the result is written back
into the node table.  `fuel` bounds the recursion depth of the unbounded JS
recursion; it is never exhausted on the acyclic inputs the theorems use. -/
def computeAggregateTime : Nat → Nat → List IComputedNode → Int × List IComputedNode
  | 0, _, nodes => (0, nodes)
  | fuel + 1, index, nodes =>
    let row := nodes.getD index default
    if row.aggregateTime ≠ 0 then (row.aggregateTime, nodes)
    else
      let r := childAggregatesWith (computeAggregateTime fuel) row.children nodes
      let total := row.selfTime + r.1
      (total, r.2.set index { row with aggregateTime := total })

/-- Pass 1 of `buildModel`: `new Array(n)` filled at `node.id - 1` with the
0-based computed node (children re-based, timings zeroed). -/
def buildNodeSlots (rawNodes : List RawNode) : List IComputedNode :=
  rawNodes.foldl
    (fun acc node =>
      acc.set (node.id - 1)
        { id := node.id - 1
          selfTime := 0
          aggregateTime := 0
          locationId := node.locationId.getD 0
          parent := none
          children := (node.children.getD []).map (· - 1) })
    (List.replicate rawNodes.length defaultCNode)

/-- The position-tick rollup interleaved with pass 1 in the source:
`locations[child.startLocationId].ticks += child.ticks`, guarded by JS
truthiness on `startLocationId` (so an id of `0` is skipped). -/
def accumulateTicks (rawNodes : List RawNode) (locations : List ILocation) : List ILocation :=
  rawNodes.foldl
    (fun locs node =>
      (node.positionTicks.getD []).foldl
        (fun locs tick =>
          match tick.startLocationId with
          | some s => if s ≠ 0 then listUpd locs s (fun loc => { loc with ticks := loc.ticks + tick.ticks }) else locs
          | none => locs)
        locs)
    locations

/-- The parent back-fill pass: `nodes[child].parent = node.id`. -/
def fillParents (nodes : List IComputedNode) : List IComputedNode :=
  (List.range nodes.length).foldl
    (fun acc i =>
      let node := acc.getD i default
      node.children.foldl
        (fun acc2 c => listUpd acc2 c (fun ch => { ch with parent := some node.id }))
        acc)
    nodes

/-- Pass 2 of `buildModel`: self-time accumulation,
`nodes[samples[i] - 1].selfTime += timeDeltas[i - 1]` for `i ∈ [1, timeDeltas.length)`. -/
def accumulateSelfTimes (samples : List Nat) (timeDeltas : List Int)
    (nodes : List IComputedNode) : List IComputedNode :=
  (List.range' 1 (timeDeltas.length - 1)).foldl
    (fun acc i =>
      listUpd acc (samples.getD i 0 - 1)
        (fun n => { n with selfTime := n.selfTime + timeDeltas.getD (i - 1) 0 }))
    nodes

/-- Pass 3 of `buildModel`: for every node in id order, compute (and cache)
its aggregate time, then roll self/aggregate time into its location. -/
def aggregatePass (nodes : List IComputedNode) (locations : List ILocation) :
    List IComputedNode × List ILocation :=
  (List.range nodes.length).foldl
    (fun (st : List IComputedNode × List ILocation) i =>
      let node := st.1.getD i default
      let r := computeAggregateTime st.1.length i st.1
      let locs := listUpd st.2 node.locationId
        (fun loc => { loc with aggregateTime := loc.aggregateTime + r.1 })
      let locs2 := listUpd locs node.locationId
        (fun loc => { loc with selfTime := loc.selfTime + node.selfTime })
      (r.2, locs2))
    (nodes, locations)

/-- The write-back of `categorize`'s call-frame mutation onto the raw nodes
whose call-frame objects were registered by `ensureSourceLocations`. -/
def applyAnonTags (tags : List (Option Nat)) (nodes : List RawNode) : List RawNode :=
  tags.foldl
    (fun acc t =>
      match t with
      | some j => listUpd acc j (fun n => { n with callFrame := anonymize n.callFrame })
      | none => acc)
    nodes

/-- `buildModel`.  Returns the computed model *and* the raw profile as left
behind by the call (the source mutates the caller's profile in place:
`ensureSourceLocations` assigns `locationId`/`positionTicks`, and
`categorize` rewrites empty function names on the aliased call frames). -/
def buildModel (properRelative : String → String → String) (mfp : String → String)
    (profile : RawProfile) : IProfileModel × RawProfile :=
  match profile.samples, profile.timeDeltas with
  | some samples, some timeDeltas =>
    let es := ensureSourceLocations mfp profile
    let locations : List ILocation := es.annotations.enum.map fun p =>
      let src := getBestLocation properRelative profile p.2.locations
      let c := categorize p.2.callFrame src
      { id := p.1, selfTime := 0, aggregateTime := 0, ticks := 0,
        category := c.1, callFrame := c.2, src := src }
    -- the categorize mutation, seen through the profile's aliases
    let profile2 :=
      match es.profile.vscode with
      | some v =>
        let v2 : VsCodeAnnotations :=
          { v with locations := v.locations.map (fun a => { a with callFrame := anonymize a.callFrame }) }
        { es.profile with vscode := some v2 }
      | none => { es.profile with nodes := applyAnonTags es.tags es.profile.nodes }
    let nodes0 := buildNodeSlots es.profile.nodes
    let locations1 := accumulateTicks es.profile.nodes locations
    let nodes1 := fillParents nodes0
    let nodes2 := accumulateSelfTimes samples timeDeltas nodes1
    let r := aggregatePass nodes2 locations1
    ({ nodes := r.1
       locations := r.2
       samples := samples.map (· - 1)
       timeDeltas := timeDeltas
       rootPath := profile.vscode.bind fun v => v.rootPath
       duration := profile.endTime - profile.startTime }, profile2)
  | _, _ =>
    ({ nodes := []
       locations := []
       samples := profile.samples.getD []
       timeDeltas := profile.timeDeltas.getD []
       rootPath := profile.vscode.bind fun v => v.rootPath
       duration := profile.endTime - profile.startTime }, profile)

/-! ## part_000: the bottom-up graph

The mutable `BottomUpNode` tree (children keyed by location id, parent
back-pointers) is embedded as a finite map from *paths* to accumulated
timings: a node's path is the list of location ids from the synthetic root
(path `[]`) down to it, so `BottomUpNode.addNode`'s walk up the parent chain
is exactly an update of every prefix of the path. -/

/-- The running timing totals of one `BottomUpNode` (`ticks` is declared but
never updated by the source). -/
structure BUTotals where
  selfTime : Int
  aggregateTime : Int
  ticks : Int
deriving DecidableEq, Repr, Inhabited

/-- The bottom-up tree as a map from location-id paths to totals. -/
def BUGraph := List Nat → BUTotals

/-- `BottomUpNode.addNode`: add the computed node's timings to the node at
`path` and, via the parent chain, to every ancestor up to the root. -/
def addNode (g : BUGraph) (path : List Nat) (node : IComputedNode) : BUGraph :=
  fun q =>
    if q.isPrefixOf path then
      { g q with selfTime := (g q).selfTime + node.selfTime,
                 aggregateTime := (g q).aggregateTime + node.aggregateTime }
    else g q

/-- `processNode`: find-or-create the child keyed by the node's location id
(in the path embedding: extend the path), add the node's timings there (and,
by `addNode`, to all ancestors), then recurse on the node's parent.  The JS
truthiness test `if (node.parent)` stops the walk at a parent id of `0` as
well as at a missing parent, so the call-tree root at index 0 is never
walked.  `fuel` bounds the unbounded JS recursion. -/
def processNode (model : IProfileModel) : Nat → List Nat → IComputedNode → BUGraph → BUGraph
  | 0, _, _, g => g
  | fuel + 1, path, node, g =>
    let childPath := path ++ [node.locationId]
    let g1 := addNode g childPath node
    match node.parent with
    | some p =>
      if p ≠ 0 then processNode model fuel childPath (model.nodes.getD p default) g1 else g1
    | none => g1

/-- `createBottomUpGraph`: seed `processNode` from every leaf computed node.
(The source also builds a `byLocation` table first, but never reads it; that
dead code is omitted here.) -/
def createBottomUpGraph (model : IProfileModel) : BUGraph :=
  model.nodes.foldl
    (fun g node =>
      if node.children.length = 0 then processNode model (model.nodes.length + 1) [] node g
      else g)
    (fun _ => { selfTime := 0, aggregateTime := 0, ticks := 0 })

/-! ## part_001: flame columns (`buildColumns`, `LocationAccessor`) -/

/-- A full flame-graph cell: `ILocation & { graphId: number }`. -/
structure ColCell where
  id : Nat
  selfTime : Int
  aggregateTime : Int
  ticks : Int
  category : Category
  callFrame : CallFrame
  src : Option BestLocation
  graphId : Nat
deriving DecidableEq, Repr, Inhabited

/-- One row of an `IColumn`: either a full cell or a back-reference (a bare
column index) to the column holding the authoritative merged cell. -/
inductive Row where
  | cell (c : ColCell)
  | ref (n : Nat)
deriving DecidableEq, Repr, Inhabited

/-- `IColumn`. -/
structure IColumn where
  x1 : Rat
  x2 : Rat
  rows : List Row
deriving DecidableEq, Repr, Inhabited

/-- Spread an `ILocation` into a cell (`{...location, graphId, …}`). -/
def toColCell (loc : ILocation) (graphId : Nat) : ColCell :=
  { id := loc.id, selfTime := loc.selfTime, aggregateTime := loc.aggregateTime,
    ticks := loc.ticks, category := loc.category, callFrame := loc.callFrame,
    src := loc.src, graphId }

/-- `columns[x].rows[y]`, `none` when either index is out of range
(JS `undefined`). -/
def rowAt (cols : List IColumn) (x y : Nat) : Option Row :=
  cols[x]?.bind fun c => c.rows[y]?

/-- Replace `columns[x].rows[y]` (used for `col.rows[y] = prevOrNumber`). -/
def setRow (cols : List IColumn) (x y : Nat) (r : Row) : List IColumn :=
  listUpd cols x fun c => { c with rows := c.rows.set y r }

/-- JS property read `row.id`: a number (back-reference) or `undefined` has
no `id` property, giving `undefined` (`none`). -/
def rowId : Option Row → Option Nat
  | some (Row.cell c) => some c.id
  | _ => none

/-- The `(selfTime, aggregateTime)` of the current row used by the merge
accumulation; in JS a number there would produce `NaN`/`TypeError`, which is
unreachable because the merge guard only lets full cells through. -/
def rowTimes : Option Row → Int × Int
  | some (Row.cell c) => (c.selfTime, c.aggregateTime)
  | _ => (0, 0)

/-- `prev.selfTime += current.selfTime; prev.aggregateTime += current.aggregateTime`
targeted at the authoritative cell `columns[t].rows[y]` (a no-op on a
non-cell target, which the merge guard makes unreachable). -/
def accumulateInto (cols : List IColumn) (t y : Nat) (times : Int × Int) : List IColumn :=
  listUpd cols t fun c =>
    { c with rows := c.rows.set y (match c.rows.getD y default with
        | Row.cell pc => Row.cell { pc with selfTime := pc.selfTime + times.1,
                                            aggregateTime := pc.aggregateTime + times.2 }
        | r => r) }

/-- One iteration of the inner merge loop of `buildColumns` at `(x, y)`:
`none` means the `break` was taken.  Mirrors the source's three-way branch on
`columns[x-1].rows[y]`; the id comparisons go through `rowId` because JS
reads `.id` off back-reference numbers as `undefined`.  (When both ids are
`undefined` the source would fall through and crash writing to a number;
that state is unreachable since back-references always resolve to cells.) -/
def mergeRowStep (cols : List IColumn) (x y : Nat) : Option (List IColumn) :=
  let current := rowAt cols x y
  match rowAt cols (x - 1) y with
  | some (Row.ref n) =>
    if rowId current = rowId (rowAt cols n y) then
      some (accumulateInto (setRow cols x y (Row.ref n)) n y (rowTimes current))
    else none
  | some (Row.cell pc) =>
    if rowId current = some pc.id then
      some (accumulateInto (setRow cols x y (Row.ref (x - 1))) (x - 1) y (rowTimes current))
    else none
  | none => none

/-- The inner `for (y …)` merge loop over one column, with `break` as early
exit; the fuel is the (constant) number of rows of the column. -/
def mergeRowsAux (x : Nat) : Nat → Nat → List IColumn → List IColumn
  | 0, _, cols => cols
  | f + 1, y, cols =>
    match mergeRowStep cols x y with
    | none => cols
    | some cols' => mergeRowsAux x f (y + 1) cols'

/-- Phase 2 of `buildColumns`: scan columns left to right (`x = 1 …`),
merging each row into its predecessor until the first mismatch. -/
def mergeColumns (cols : List IColumn) : List IColumn :=
  ((List.range cols.length).drop 1).foldl
    (fun acc x => mergeRowsAux x (acc.getD x default).rows.length 0 acc)
    cols

/-- The ancestor walk of phase 1: `for (let id = root.parent; id; id = nodes[id].parent)`
prepends (`unshift`) one zero-self row per ancestor; JS truthiness stops the
walk at id `0` (the call-tree root never gets a row) as well as at a missing
parent.  Returns the rows and the advanced `graphIdCounter`. -/
def stackRows (model : IProfileModel) (selfTime : Int) :
    Nat → Option Nat → Nat → List ColCell → List ColCell × Nat
  | 0, _, gid, rows => (rows, gid)
  | fuel + 1, idOpt, gid, rows =>
    match idOpt with
    | some id =>
      if id ≠ 0 then
        let node := model.nodes.getD id default
        let row := { toColCell (model.locations.getD node.locationId default) gid with
                       selfTime := 0, aggregateTime := selfTime }
        stackRows model selfTime fuel node.parent (gid + 1) (row :: rows)
      else (rows, gid)
    | none => (rows, gid)

/-- Phase 1 of `buildColumns`: one column per interior sample
(`i = 1 … samples.length - 2`), whose self time is `timeDeltas[i-1]`, whose
rows are the node's stack (root-most first, leaf last), and whose x-extent
is the running time offset over the total duration. -/
def buildInitialColumns (model : IProfileModel) : List IColumn :=
  ((List.range' 1 (model.samples.length - 2)).foldl
    (fun (st : List IColumn × Nat × Int) i =>
      let root := model.nodes.getD (model.samples.getD i 0) default
      let selfTime := model.timeDeltas.getD (i - 1) 0
      let leaf : ColCell :=
        { toColCell (model.locations.getD root.locationId default) st.2.1 with
            selfTime := selfTime, aggregateTime := 0 }
      let r := stackRows model selfTime (model.nodes.length + 1) root.parent (st.2.1 + 1) [leaf]
      let col : IColumn :=
        { x1 := (st.2.2 : Rat) / (model.duration : Rat)
          x2 := ((selfTime + st.2.2 : Int) : Rat) / (model.duration : Rat)
          rows := r.1.map Row.cell }
      (st.1 ++ [col], r.2, st.2.2 + selfTime))
    ([], 0, 0)).1

/-- `buildColumns`: column synthesis followed by the horizontal merge. -/
def buildColumns (model : IProfileModel) : List IColumn :=
  mergeColumns (buildInitialColumns model)

/-- `LocationAccessor`: a read-only cursor on the column grid.  The source's
constructor also copies the cell's location fields; they are carried in
`cell`.  Constructing an accessor on a back-reference throws, which is
embedded by `mkAccessor` returning `none`. -/
structure LocationAccessor where
  model : List IColumn
  x : Nat
  y : Nat
  cell : ColCell
deriving Repr

/-- The `LocationAccessor` constructor: fails (`throw`) on a merged cell. -/
def mkAccessor (cols : List IColumn) (x y : Nat) : Option LocationAccessor :=
  match rowAt cols x y with
  | some (Row.cell c) => some { model := cols, x, y, cell := c }
  | _ => none

/-- `LocationAccessor.rootAccessors`: one accessor per column whose row 0 is
a full cell (`typeof columns[x].rows[0] === 'object'`). -/
def rootAccessors (columns : List IColumn) : List LocationAccessor :=
  (List.range columns.length).foldl
    (fun acc x =>
      match rowAt columns x 0 with
      | some (Row.cell c) => acc ++ [{ model := columns, x, y := 0, cell := c }]
      | _ => acc)
    []

/-- The marking loop of `getFilteredColumns`: from an accessor at `(ax, ay)`,
mark every subsequent column whose row `ay` back-references `ax` (this loop
is bounds-checked in the source). -/
def markRun (columns : List IColumn) (ax ay : Nat) : Nat → Nat → List Bool → List Bool
  | 0, _, v => v
  | f + 1, x, v =>
    if x < columns.length ∧ rowAt columns x ay = some (Row.ref ax) then
      markRun columns ax ay f (x + 1) (v.set x true)
    else v

/-- `LocationAccessor.getFilteredColumns`: keep the columns reached from the
accessors (each accessor's column plus its merge run), then re-offset the
surviving back-references by the number of dropped columns to their left. -/
def getFilteredColumns (columns : List IColumn) (accessors : List LocationAccessor) :
    List IColumn :=
  let validX := accessors.foldl
    (fun v a => markRun columns a.x a.y columns.length (a.x + 1) (v.set a.x true))
    (List.replicate columns.length false)
  ((List.range columns.length).foldl
    (fun (st : Nat × List IColumn) x =>
      if validX.getD x false = false then (st.1 + 1, st.2)
      else
        let column := columns.getD x default
        let adjusted :=
          if st.1 ≠ 0 then
            { column with rows := column.rows.map fun r =>
                match r with
                | Row.ref n => Row.ref (n - st.1)
                | c => c }
          else column
        (st.1, st.2 ++ [adjusted]))
    (0, [])).2

/-- The `children` getter of `LocationAccessor`: scan the columns spanned by
the accessor's cell, collecting an accessor for each row one deeper.  The
result is `none` when the JS would throw: the loop condition reads
`this.model[++dx].rows` with no bounds check (a `TypeError` once `dx` runs
past the last column), and the body's truthiness test lets a non-zero
back-reference reach the throwing accessor constructor.  (A back-reference
of `0` is falsy and silently skipped.)  The fuel starts at
`model.length + 1` which the bounds test makes it impossible to exhaust. -/
def childrenLoop (model : List IColumn) (x y : Nat) :
    Nat → Nat → List LocationAccessor → Option (List LocationAccessor)
  | 0, _, _ => none
  | f + 1, dx, acc =>
    let step : Option (List LocationAccessor) :=
      match rowAt model dx (y + 1) with
      | some (Row.cell c) => some (acc ++ [{ model, x := dx, y := y + 1, cell := c }])
      | some (Row.ref 0) => some acc
      | some (Row.ref _) => none
      | none => some acc
    match step with
    | none => none
    | some acc2 =>
      if dx + 1 < model.length then
        if rowAt model (dx + 1) y = some (Row.ref x) then childrenLoop model x y f (dx + 1) acc2
        else some acc2
      else none

/-- `LocationAccessor.children` (as a function of the cursor position). -/
def childrenOf (model : List IColumn) (x y : Nat) : Option (List LocationAccessor) :=
  childrenLoop model x y (model.length + 1) x []

/-! ## Derived reference quantities

Auxiliary definitions used to *state* properties of the embedded code. -/

/-- The sum of `aggregateTime` along a computed node's parent chain: the node
itself plus each ancestor reached by `processNode`'s walk (which, like the
source, stops at a missing parent or at a parent id of `0`).  The fuel
mirrors the fuel of the `processNode` embedding. -/
def chainAggregate (model : IProfileModel) : Nat → IComputedNode → Int
  | 0, _ => 0
  | fuel + 1, node =>
    node.aggregateTime +
      (match node.parent with
       | some p => if p ≠ 0 then chainAggregate model fuel (model.nodes.getD p default) else 0
       | none => 0)

/-- Sum a recursively defined value over a child list (the pure companion of
`childAggregatesWith`). -/
def aggregateValueWith (rec : Nat → Int) : List Nat → Int
  | [] => 0
  | c :: rest => rec c + aggregateValueWith rec rest

/-- The pure (state-free) aggregate value of a node: its self time plus the
aggregate values of its children, with the same fuel structure as
`computeAggregateTime`. -/
def aggregateValue (nodes : List IComputedNode) : Nat → Nat → Int
  | 0, _ => 0
  | fuel + 1, i =>
    (nodes.getD i default).selfTime +
      aggregateValueWith (aggregateValue nodes fuel) (nodes.getD i default).children

/-- A node with its cached `aggregateTime` replaced. -/
def setAggregate (n : IComputedNode) (t : Int) : IComputedNode :=
  { n with aggregateTime := t }

/-- The value of the (full) cell at `(x, y)` of a column list, `0` when that
row is absent or a back-reference. -/
def cellVal (cols : List IColumn) (x y : Nat) (f : ColCell → Int) : Int :=
  match rowAt cols x y with
  | some (Row.cell c) => f c
  | _ => 0

/-- The accumulated contribution, at row `y`, of the columns whose row `y`
back-references column `w`: the sum of their original (phase-1) cell
values. -/
def refSum (orig cols : List IColumn) (w y : Nat) (f : ColCell → Int) : Int :=
  ∑ z ∈ (Finset.range cols.length).filter
      (fun z => rowAt cols z y = some (Row.ref w)),
    cellVal orig z y f

/-- The merge cannot act on column `x` at row 0: the id comparison against
the (resolved) previous column fails, so a re-run of the merge breaks
immediately at this column. -/
def MergeBlocked (cols : List IColumn) (x : Nat) : Prop :=
  (∀ n, rowAt cols (x - 1) 0 = some (Row.ref n) →
    rowId (rowAt cols x 0) ≠ rowId (rowAt cols n 0)) ∧
  (∀ pc, rowAt cols (x - 1) 0 = some (Row.cell pc) →
    rowId (rowAt cols x 0) ≠ some pc.id)

/-- Invariant of the horizontal merge phase after columns `1 … k` have been
processed, relative to the phase-1 column list `orig` (whose rows are all
full cells): lengths are stable, unprocessed columns are untouched, rows
never appear or disappear, every back-reference points left to a full cell
and is left-contiguous, every remaining full cell accounts exactly for the
original values of the columns that reference it, and processed columns can
no longer merge at row 0. -/
def MergeInv (orig cols : List IColumn) (k : Nat) : Prop :=
  cols.length = orig.length ∧
  (∀ z, k < z → z < orig.length → cols.getD z default = orig.getD z default) ∧
  (∀ x y, rowAt cols x y = none ↔ rowAt orig x y = none) ∧
  (∀ x y n, rowAt cols x y = some (Row.ref n) → 1 ≤ x ∧ x ≤ k ∧ n < x ∧
    (∃ c, rowAt cols n y = some (Row.cell c)) ∧
    (rowAt cols (x - 1) y = some (Row.ref n) ∨ n = x - 1)) ∧
  (∀ x y c, rowAt cols x y = some (Row.cell c) →
    ∃ c0, rowAt orig x y = some (Row.cell c0) ∧ c.id = c0.id ∧
      c.selfTime = c0.selfTime + refSum orig cols x y (fun v => v.selfTime) ∧
      c.aggregateTime = c0.aggregateTime + refSum orig cols x y (fun v => v.aggregateTime)) ∧
  (∀ x, 1 ≤ x → x ≤ k → MergeBlocked cols x)

/-- Invariant inside the merge of column `x = k + 1`, with rows `0 … y-1` of
that column already merged. -/
def MergeInnerInv (orig cols : List IColumn) (k x y : Nat) : Prop :=
  cols.length = orig.length ∧
  (∀ z, x < z → z < orig.length → cols.getD z default = orig.getD z default) ∧
  (∀ z w, rowAt cols z w = none ↔ rowAt orig z w = none) ∧
  (∀ z w n, rowAt cols z w = some (Row.ref n) → 1 ≤ z ∧ (z ≤ k ∨ (z = x ∧ w < y)) ∧ n < z ∧
    (∃ c, rowAt cols n w = some (Row.cell c)) ∧
    (rowAt cols (z - 1) w = some (Row.ref n) ∨ n = z - 1)) ∧
  (∀ z w c, rowAt cols z w = some (Row.cell c) →
    ∃ c0, rowAt orig z w = some (Row.cell c0) ∧ c.id = c0.id ∧
      c.selfTime = c0.selfTime + refSum orig cols z w (fun v => v.selfTime) ∧
      c.aggregateTime = c0.aggregateTime + refSum orig cols z w (fun v => v.aggregateTime)) ∧
  (∀ z, 1 ≤ z → z ≤ k → MergeBlocked cols z) ∧
  (∀ w, y ≤ w → rowAt cols x w = rowAt orig x w) ∧
  (∀ w, w < y → ∃ n, rowAt cols x w = some (Row.ref n))

/-! ## Concrete example inputs used by witnesses and counterexamples -/

/-- A concrete stand-in for the external `properRelative` collaborator. -/
def exRel : String → String → String := fun _ p => p

/-- A concrete stand-in for the external `maybeFileUrlToPath` collaborator. -/
def exPath : String → String := fun s => s

/-- A concrete call frame for the example profiles. -/
def exCallFrame (n : String) : CallFrame :=
  { functionName := n, scriptId := "0", url := "file:///a.js", lineNumber := 1, columnNumber := 1 }

/-- A raw profile with a three-node chain `id 1 → id 2 → id 3` (functions
`a`, `b`, `c`) and the given samples/deltas. -/
def exChain3 (samples : List Nat) (deltas : List Int) : RawProfile :=
  { nodes := [
      { id := 1, callFrame := exCallFrame "a", children := some [2],
        positionTicks := none, locationId := none },
      { id := 2, callFrame := exCallFrame "b", children := some [3],
        positionTicks := none, locationId := none },
      { id := 3, callFrame := exCallFrame "c", children := none,
        positionTicks := none, locationId := none }],
    samples := some samples, timeDeltas := some deltas,
    startTime := 0, endTime := 100, vscode := none }

/-- The three-node chain with an empty function name on the grandchild
(exhibits the `(anonymous)` call-frame rewrite). -/
def exChain3Anon : RawProfile :=
  { exChain3 [1, 2, 3, 3] [5, 5, 5] with nodes := [
      { id := 1, callFrame := exCallFrame "a", children := some [2],
        positionTicks := none, locationId := none },
      { id := 2, callFrame := exCallFrame "b", children := some [3],
        positionTicks := none, locationId := none },
      { id := 3, callFrame := exCallFrame "", children := none,
        positionTicks := none, locationId := none }] }

/-- A raw profile with neither `samples` nor `timeDeltas` (an aborted capture). -/
def exAborted : RawProfile :=
  { nodes := [], samples := none, timeDeltas := none,
    startTime := 3, endTime := 10, vscode := none }

/-- The model of the scenario profile (samples `[1,2,3,3]`, deltas `[5,5,5]`). -/
def exScenarioModel : IProfileModel :=
  (buildModel exRel exPath (exChain3 [1, 2, 3, 3] [5, 5, 5])).1

/-- A model whose samples all sit on the deepest node of the chain. -/
def exDeepModel : IProfileModel :=
  (buildModel exRel exPath (exChain3 [3, 3, 3] [5, 5])).1

/-- A model whose samples all sit on the root node: its flame columns are one
single-row column followed by a column that back-references it. -/
def exFlatModel : IProfileModel :=
  (buildModel exRel exPath (exChain3 [1, 1, 1, 1] [1, 1, 1])).1

/-!
# Theorems

General-purpose lemmas first, then the per-claim theorems.
-/

/-! ## List helper lemmas -/

@[simp] theorem listUpd_length [Inhabited α] (l : List α) (i : Nat) (f : α → α) :
    (listUpd l i f).length = l.length := by
  simp [listUpd]

theorem listUpd_getD_eq [Inhabited α] (l : List α) (i : Nat) (f : α → α) (h : i < l.length) :
    (listUpd l i f).getD i default = f (l.getD i default) := by
  simp [listUpd, List.getD_eq_getElem?_getD, List.getElem?_set_self' , h]

theorem listUpd_getD_ne [Inhabited α] (l : List α) (i j : Nat) (f : α → α) (h : j ≠ i) :
    (listUpd l i f).getD j default = l.getD j default := by
  simp [listUpd, List.getD_eq_getElem?_getD, List.getElem?_set_ne (Ne.symm h)]

/-- A left fold whose step preserves list length preserves it overall. -/
theorem foldl_length_eq {α β : Type _} (f : List β → α → List β) (l : List α)
    (h : ∀ acc a, (f acc a).length = acc.length) :
    ∀ init : List β, (l.foldl f init).length = init.length := by
  induction l with
  | nil => intro init; rfl
  | cons a l ih => intro init; rw [List.foldl_cons, ih, h]

/-! ## Length preservation through the `buildModel` pipeline -/

theorem buildNodeSlots_length (rawNodes : List RawNode) :
    (buildNodeSlots rawNodes).length = rawNodes.length := by
  rw [buildNodeSlots, foldl_length_eq]
  · exact List.length_replicate _ _
  · intro acc a; exact List.length_set ..

theorem fillParents_length (nodes : List IComputedNode) :
    (fillParents nodes).length = nodes.length := by
  rw [fillParents, foldl_length_eq]
  intro acc i
  exact foldl_length_eq _ _ (fun acc2 c => listUpd_length ..) acc

theorem accumulateSelfTimes_length (samples : List Nat) (timeDeltas : List Int)
    (nodes : List IComputedNode) :
    (accumulateSelfTimes samples timeDeltas nodes).length = nodes.length := by
  rw [accumulateSelfTimes, foldl_length_eq]
  intro acc a; exact listUpd_length ..

theorem childAggregatesWith_length
    (rec : Nat → List IComputedNode → Int × List IComputedNode)
    (hrec : ∀ c nodes, ((rec c nodes).2).length = nodes.length) :
    ∀ (cs : List Nat) (nodes : List IComputedNode),
      ((childAggregatesWith rec cs nodes).2).length = nodes.length := by
  intro cs
  induction cs with
  | nil => intro nodes; rfl
  | cons c rest ih =>
    intro nodes
    simp only [childAggregatesWith]
    rw [ih, hrec]

theorem computeAggregateTime_length (fuel : Nat) :
    ∀ (i : Nat) (nodes : List IComputedNode),
      ((computeAggregateTime fuel i nodes).2).length = nodes.length := by
  induction fuel with
  | zero => intro i nodes; rfl
  | succ f ih =>
    intro i nodes
    simp only [computeAggregateTime]
    split
    · rfl
    · rw [List.length_set, childAggregatesWith_length _ ih]

theorem aggregatePass_fst_length (nodes : List IComputedNode) (locations : List ILocation) :
    ((aggregatePass nodes locations).1).length = nodes.length := by
  rw [aggregatePass]
  have h : ∀ (l : List Nat) (st : List IComputedNode × List ILocation),
      ((l.foldl (fun (st : List IComputedNode × List ILocation) i =>
        let node := st.1.getD i default
        let r := computeAggregateTime st.1.length i st.1
        let locs := listUpd st.2 node.locationId
          (fun loc => { loc with aggregateTime := loc.aggregateTime + r.1 })
        let locs2 := listUpd locs node.locationId
          (fun loc => { loc with selfTime := loc.selfTime + node.selfTime })
        (r.2, locs2)) st).1).length = st.1.length := by
    intro l
    induction l with
    | nil => intro st; rfl
    | cons i l ih =>
      intro st
      rw [List.foldl_cons, ih]
      exact computeAggregateTime_length ..
  exact h _ _

theorem ensureSourceLocations_nodes_length (mfp : String → String) (p : RawProfile) :
    ((ensureSourceLocations mfp p).profile).nodes.length = p.nodes.length := by
  rw [ensureSourceLocations]
  cases hv : p.vscode with
  | some v => rfl
  | none =>
    simp only []
    have h : ∀ (l : List (Nat × RawNode)) (st : List (String × LocEntry) × List RawNode),
        ((l.foldl (fun (st : List (String × LocEntry) × List RawNode) p =>
          let r := annotateNode mfp st.1 p.1 p.2
          (r.1, st.2 ++ [r.2])) st).2).length = st.2.length + l.length := by
      intro l
      induction l with
      | nil => intro st; simp
      | cons a l ih =>
        intro st
        rw [List.foldl_cons, ih]
        simp only [List.length_append, List.length_cons, List.length_nil]
        omega
    rw [h]
    simp [List.enum_length]

/-! ## C5: soft-fail on absent samples / time deltas -/

/-- C5: for every raw profile in which the samples field or the timeDeltas
field is absent, `buildModel` does not fail: it returns a model with empty
nodes and empty locations, duration equal to `endTime - startTime`, and the
configured root path preserved. -/
theorem buildModel_soft_fail (pr : String → String → String) (mfp : String → String)
    (p : RawProfile) (h : p.samples = none ∨ p.timeDeltas = none) :
    (buildModel pr mfp p).1.nodes = [] ∧
    (buildModel pr mfp p).1.locations = [] ∧
    (buildModel pr mfp p).1.duration = p.endTime - p.startTime ∧
    (buildModel pr mfp p).1.rootPath = p.vscode.bind (fun v => v.rootPath) := by
  rcases h with h | h <;> cases hs : p.samples <;> cases ht : p.timeDeltas <;>
    simp_all [buildModel]

/-- Witness for C5 at the concrete aborted capture. -/
theorem buildModel_soft_fail_witness :
    (exAborted.samples = none ∨ exAborted.timeDeltas = none) ∧
    ((buildModel exRel exPath exAborted).1.nodes = [] ∧
     (buildModel exRel exPath exAborted).1.locations = [] ∧
     (buildModel exRel exPath exAborted).1.duration = exAborted.endTime - exAborted.startTime ∧
     (buildModel exRel exPath exAborted).1.rootPath = exAborted.vscode.bind (fun v => v.rootPath)) :=
  ⟨Or.inl rfl, buildModel_soft_fail exRel exPath exAborted (Or.inl rfl)⟩

/-! ## C6: `buildModel` mutates the caller's profile -/

/-- C6 counterexample: `buildModel` does *not* leave the raw profile
unchanged.  On the three-node chain (no `$vscode` annotations, grandchild
with an empty function name) every node's `locationId` is assigned and the
empty function name is rewritten to `(anonymous)` in place. -/
theorem buildModel_mutates_profile :
    (buildModel exRel exPath exChain3Anon).2 ≠ exChain3Anon ∧
    ((buildModel exRel exPath exChain3Anon).2.nodes.map
        (fun n => (n.locationId, n.callFrame.functionName)))
      = [(some 0, "a"), (some 1, "b"), (some 2, "(anonymous)")] ∧
    (exChain3Anon.nodes.map (fun n => (n.locationId, n.callFrame.functionName)))
      = [(none, "a"), (none, "b"), (none, "")] := by
  refine ⟨by decide, by decide, by decide⟩

/-- C6 (amended): `buildModel` preserves the profile's `samples`,
`timeDeltas`, `startTime` and `endTime`; the node records (`locationId`,
`positionTicks`, empty call-frame names) and the `$vscode` annotation call
frames may be mutated in place. -/
theorem buildModel_preserves_samples_and_times (pr : String → String → String)
    (mfp : String → String) (p : RawProfile) :
    (buildModel pr mfp p).2.samples = p.samples ∧
    (buildModel pr mfp p).2.timeDeltas = p.timeDeltas ∧
    (buildModel pr mfp p).2.startTime = p.startTime ∧
    (buildModel pr mfp p).2.endTime = p.endTime := by
  cases hs : p.samples <;> cases ht : p.timeDeltas <;> cases hv : p.vscode <;>
    simp [buildModel, ensureSourceLocations, hs, ht, hv]

/-! ## C4: the sample-index invariant of built models -/

/-- C4 counterexample: the soft-fail branch breaks
`samples.length == timeDeltas.length + 1` (an absent-fields profile yields
`0 = 0 + 1`). -/
theorem buildModel_soft_fail_breaks_length_invariant :
    ¬ ((buildModel exRel exPath exAborted).1.samples.length =
        (buildModel exRel exPath exAborted).1.timeDeltas.length + 1) := by decide

/-- C4 (amended): when both fields are present, raw `samples.length`
equals `timeDeltas.length + 1`, and every raw sample id lies in
`[1, nodes.length]`, the built model satisfies
`samples.length == timeDeltas.length + 1` and every `samples[i]` is a valid
0-based index into the model's `nodes` array. -/
theorem buildModel_sample_invariant (pr : String → String → String)
    (mfp : String → String) (p : RawProfile) (s : List Nat) (d : List Int)
    (hs : p.samples = some s) (hd : p.timeDeltas = some d)
    (hlen : s.length = d.length + 1)
    (hval : ∀ x ∈ s, 1 ≤ x ∧ x ≤ p.nodes.length) :
    (buildModel pr mfp p).1.samples.length = (buildModel pr mfp p).1.timeDeltas.length + 1 ∧
    ∀ i < (buildModel pr mfp p).1.samples.length,
      (buildModel pr mfp p).1.samples.getD i 0 < (buildModel pr mfp p).1.nodes.length := by
  have hysmp : (buildModel pr mfp p).1.samples = s.map (· - 1) := by
    simp [buildModel, hs, hd]
  have hytd : (buildModel pr mfp p).1.timeDeltas = d := by
    simp [buildModel, hs, hd]
  have hynodes : (buildModel pr mfp p).1.nodes.length = p.nodes.length := by
    simp only [buildModel, hs, hd]
    rw [aggregatePass_fst_length, accumulateSelfTimes_length, fillParents_length,
      buildNodeSlots_length, ensureSourceLocations_nodes_length]
  refine ⟨by simp [hysmp, hytd, hlen], ?_⟩
  intro i hi
  rw [hysmp] at hi ⊢
  rw [hynodes]
  rw [List.length_map] at hi
  have h1 : (List.map (· - 1) s).getD i 0 = s.get ⟨i, hi⟩ - 1 := by
    rw [List.getD_eq_getElem?_getD, List.getElem?_map]
    simp [List.getElem?_eq_getElem hi]
  rw [h1]
  have h2 := hval (s.get ⟨i, hi⟩) (s.get_mem ..)
  omega

/-- Witness for C4 (amended) at the scenario chain profile. -/
theorem buildModel_sample_invariant_witness :
    ((exChain3 [1, 2, 3, 3] [5, 5, 5]).samples = some [1, 2, 3, 3] ∧
     (exChain3 [1, 2, 3, 3] [5, 5, 5]).timeDeltas = some [5, 5, 5] ∧
     ([1, 2, 3, 3] : List Nat).length = ([5, 5, 5] : List Int).length + 1 ∧
     (∀ x ∈ ([1, 2, 3, 3] : List Nat), 1 ≤ x ∧ x ≤ (exChain3 [1, 2, 3, 3] [5, 5, 5]).nodes.length)) ∧
    ((buildModel exRel exPath (exChain3 [1, 2, 3, 3] [5, 5, 5])).1.samples.length =
       (buildModel exRel exPath (exChain3 [1, 2, 3, 3] [5, 5, 5])).1.timeDeltas.length + 1 ∧
     ∀ i < (buildModel exRel exPath (exChain3 [1, 2, 3, 3] [5, 5, 5])).1.samples.length,
       (buildModel exRel exPath (exChain3 [1, 2, 3, 3] [5, 5, 5])).1.samples.getD i 0 <
         (buildModel exRel exPath (exChain3 [1, 2, 3, 3] [5, 5, 5])).1.nodes.length) :=
  ⟨⟨rfl, rfl, rfl, by decide⟩,
    buildModel_sample_invariant exRel exPath _ [1, 2, 3, 3] [5, 5, 5] rfl rfl rfl (by decide)⟩

/-! ## C10: the `children` getter reads one column past a span ending at the
final column -/

/-- C10: the claim fails on the code.  On the flat model the merged column
list is `[cell, ref 0]`; the accessor at `(0,0)` is valid (row 0 of column 0
is a full cell), its span extends to the final column, and evaluating the
`children` getter evaluates `this.model[++dx].rows` at `dx = 2 =
columns.length`, an out-of-bounds read (`TypeError` in JS), embedded as
`none`. -/
theorem children_reads_past_last_column :
    (buildColumns exFlatModel).length = 2 ∧
    (mkAccessor (buildColumns exFlatModel) 0 0).isSome = true ∧
    rowAt (buildColumns exFlatModel) 1 0 = some (Row.ref 0) ∧
    childrenOf (buildColumns exFlatModel) 0 0 = none := by
  refine ⟨by decide, by decide, by decide, by rfl⟩

/-! ## C2: the bottom-up root total -/

/-- C2 counterexample: on the model of the chain sampled at its deepest node
(`samples [3,3,3]`, `deltas [5,5]`), the bottom-up root's `aggregateTime` is
`10`, while the sum of `selfTime` over all computed nodes is `5`: the claimed
equality fails. -/
theorem bottomUp_root_counterexample :
    ((createBottomUpGraph exDeepModel) []).aggregateTime = 10 ∧
    (exDeepModel.nodes.map (fun n => n.selfTime)).sum = 5 ∧
    ((createBottomUpGraph exDeepModel) []).aggregateTime ≠
      (exDeepModel.nodes.map (fun n => n.selfTime)).sum := by
  refine ⟨by rfl, by decide, by decide⟩

/-- Evaluating an `addNode` update at the root path `[]` (a prefix of every
path) adds the node's timings there. -/
theorem addNode_apply_root (g : BUGraph) (path : List Nat) (node : IComputedNode) :
    (addNode g path node) [] =
      { g [] with selfTime := (g []).selfTime + node.selfTime,
                  aggregateTime := (g []).aggregateTime + node.aggregateTime } := by
  simp [addNode, List.isPrefixOf]

/-- The root contribution of one `processNode` walk: evaluated at the root
path `[]`, a walk seeded with `node` adds exactly the chain sum of
`aggregateTime` along the node's parent chain. -/
theorem processNode_root_aggregate (model : IProfileModel) :
    ∀ (fuel : Nat) (path : List Nat) (node : IComputedNode) (g : BUGraph),
      ((processNode model fuel path node g) []).aggregateTime =
        ((g []).aggregateTime) + chainAggregate model fuel node := by
  intro fuel
  induction fuel with
  | zero => intro path node g; simp [processNode, chainAggregate]
  | succ f ih =>
    intro path node g
    simp only [processNode, chainAggregate]
    cases hp : node.parent with
    | none => simp [addNode_apply_root]
    | some p =>
      by_cases hz : p = 0
      · simp [hz, addNode_apply_root]
      · simp only [hz, ne_eq, not_false_eq_true, if_true, ih, addNode_apply_root]
        ring

/-- C2 (amended): the bottom-up root's `aggregateTime` is the sum, over the
*leaf* computed nodes, of the `aggregateTime` accumulated along each leaf's
whole parent chain (the leaf and every ancestor above it, the walk stopping
at a missing parent or at node index 0) — not the sum of `selfTime` over all
computed nodes. -/
theorem bottomUp_root_aggregate (model : IProfileModel) :
    ((createBottomUpGraph model) []).aggregateTime =
      ((model.nodes.filter (fun n => n.children.length = 0)).map
        (chainAggregate model (model.nodes.length + 1))).sum := by
  rw [createBottomUpGraph]
  have h : ∀ (ns : List IComputedNode) (g : BUGraph),
      ((ns.foldl (fun g node =>
          if node.children.length = 0 then processNode model (model.nodes.length + 1) [] node g
          else g) g) []).aggregateTime =
        (g []).aggregateTime +
          ((ns.filter (fun n => n.children.length = 0)).map
            (chainAggregate model (model.nodes.length + 1))).sum := by
    intro ns
    induction ns with
    | nil => intro g; simp
    | cons n ns ih =>
      intro g
      rw [List.foldl_cons, List.filter_cons]
      by_cases hn : n.children.length = 0
      · rw [if_pos hn, ih, processNode_root_aggregate]
        simp only [hn]
        rw [if_pos (show decide True = true by rfl)]
        simp only [List.map_cons, List.sum_cons]
        ring
      · rw [if_neg hn, ih]
        have hd : decide (n.children.length = 0) = false := by
          simpa using hn
        rw [hd, if_neg (by simp)]
  rw [h]
  simp

/-! ## C1: self-time accumulation -/

theorem getD_map_eq {α β : Type _} (g : α → β) (l : List α) (d : α) :
    ∀ i : Nat, (l.map g).getD i (g d) = g (l.getD i d) := by
  induction l with
  | nil => intro i; rfl
  | cons a l ih => intro i; cases i with
    | zero => rfl
    | succ j => exact ih j

/-- `listUpd` with a function that does not change the projection `g`
preserves the `g`-image of the list. -/
theorem map_listUpd_eq {α β : Type _} [Inhabited α] (g : α → β) (f : α → α)
    (h : ∀ x, g (f x) = g x) (l : List α) :
    ∀ i : Nat, (listUpd l i f).map g = l.map g := by
  induction l with
  | nil => intro i; rfl
  | cons a l ih =>
    intro i
    cases i with
    | zero => simp [listUpd, List.getD, h]
    | succ j =>
      have : listUpd (a :: l) (j + 1) f = a :: listUpd l j f := by
        simp [listUpd, List.getD]
      rw [this, List.map_cons, List.map_cons, ih]

/-- Setting an element to something with the same `g`-image preserves the
`g`-image of the list. -/
theorem map_set_eq {α β : Type _} [Inhabited α] (g : α → β) (l : List α) (x : α) :
    ∀ i : Nat, g x = g (l.getD i default) → (l.set i x).map g = l.map g := by
  induction l with
  | nil => intro i _; rfl
  | cons a l ih =>
    intro i hx
    cases i with
    | zero => simp_all [List.getD]
    | succ j =>
      simp only [List.set_cons_succ, List.map_cons]
      rw [ih j (by simpa [List.getD] using hx)]

/-- `listUpd` with a function that adds `δ` to the projection `g` adds `δ`
to the sum of the `g`-image, provided the index is in range. -/
theorem sum_map_listUpd {α : Type _} [Inhabited α] (g : α → Int) (f : α → α) (δ : Int)
    (h : ∀ x, g (f x) = g x + δ) (l : List α) :
    ∀ i : Nat, i < l.length → ((listUpd l i f).map g).sum = (l.map g).sum + δ := by
  induction l with
  | nil => intro i hi; simp at hi
  | cons a l ih =>
    intro i hi
    cases i with
    | zero => simp [listUpd, List.getD, h]; ring
    | succ j =>
      have : listUpd (a :: l) (j + 1) f = a :: listUpd l j f := by
        simp [listUpd, List.getD]
      rw [this, List.map_cons, List.sum_cons, ih j (by simpa using hi), List.map_cons,
        List.sum_cons]
      ring

/-- Every slot of `buildNodeSlots` has zero self time. -/
theorem buildNodeSlots_selfTime_zero (rawNodes : List RawNode) :
    ∀ x ∈ buildNodeSlots rawNodes, x.selfTime = 0 := by
  rw [buildNodeSlots]
  have h : ∀ (l : List RawNode) (acc : List IComputedNode),
      (∀ x ∈ acc, x.selfTime = 0) →
      ∀ x ∈ l.foldl (fun acc node =>
          acc.set (node.id - 1)
            { id := node.id - 1, selfTime := 0, aggregateTime := 0,
              locationId := node.locationId.getD 0, parent := none,
              children := (node.children.getD []).map (· - 1) }) acc,
        x.selfTime = 0 := by
    intro l
    induction l with
    | nil => intro acc hacc; exact hacc
    | cons n l ih =>
      intro acc hacc
      rw [List.foldl_cons]
      refine ih _ ?_
      intro x hx
      rcases List.mem_or_eq_of_mem_set hx with hx | hx
      · exact hacc x hx
      · rw [hx]
  refine h _ _ ?_
  intro x hx
  rw [List.eq_of_mem_replicate hx]
  rfl

/-- `fillParents` does not change any node's self time. -/
theorem fillParents_map_selfTime (nodes : List IComputedNode) :
    (fillParents nodes).map (fun n => n.selfTime) = nodes.map (fun n => n.selfTime) := by
  rw [fillParents]
  have hinner : ∀ (cs : List Nat) (acc : List IComputedNode) (id : Nat),
      ((cs.foldl (fun acc2 c => listUpd acc2 c (fun ch => { ch with parent := some id })) acc).map
        (fun n => n.selfTime)) = acc.map (fun n => n.selfTime) := by
    intro cs
    induction cs with
    | nil => intro acc id; rfl
    | cons c cs ih =>
      intro acc id
      rw [List.foldl_cons, ih, map_listUpd_eq]
      intro x; rfl
  have houter : ∀ (l : List Nat) (acc : List IComputedNode),
      ((l.foldl (fun (acc : List IComputedNode) (i : Nat) =>
          let node := acc.getD i default
          node.children.foldl
            (fun acc2 c => listUpd acc2 c (fun ch => { ch with parent := some node.id })) acc)
          acc).map
        (fun n => n.selfTime)) = acc.map (fun n => n.selfTime) := by
    intro l
    induction l with
    | nil => intro acc; rfl
    | cons i l ih =>
      intro acc
      rw [List.foldl_cons, ih, hinner]
  exact houter _ _

/-- `childAggregatesWith` preserves any projection the recursive call
preserves. -/
theorem childAggregatesWith_map {β : Type _} (g : IComputedNode → β)
    (rec : Nat → List IComputedNode → Int × List IComputedNode)
    (hrec : ∀ c nodes, ((rec c nodes).2).map g = nodes.map g) :
    ∀ (cs : List Nat) (nodes : List IComputedNode),
      ((childAggregatesWith rec cs nodes).2).map g = nodes.map g := by
  intro cs
  induction cs with
  | nil => intro nodes; rfl
  | cons c rest ih =>
    intro nodes
    simp only [childAggregatesWith]
    rw [ih, hrec]

/-- `computeAggregateTime` changes only the `aggregateTime` field: every
projection that ignores `aggregateTime` is preserved. -/
theorem computeAggregateTime_map {β : Type _} (g : IComputedNode → β)
    (hg : ∀ n t, g { n with aggregateTime := t } = g n) (fuel : Nat) :
    ∀ (i : Nat) (nodes : List IComputedNode),
      ((computeAggregateTime fuel i nodes).2).map g = nodes.map g := by
  induction fuel with
  | zero => intro i nodes; rfl
  | succ f ih =>
    intro i nodes
    simp only [computeAggregateTime]
    split
    · rfl
    · have h2 := childAggregatesWith_map g _ ih ((nodes.getD i default).children) nodes
      have ha := getD_map_eq g ((childAggregatesWith (computeAggregateTime f)
        (nodes.getD i default).children nodes).2) default i
      have hb := getD_map_eq g nodes default i
      rw [h2] at ha
      rw [map_set_eq g _ _ i (by rw [hg]; exact hb.symm.trans ha), h2]

/-- The aggregate pass does not change any node's self time. -/
theorem aggregatePass_map_selfTime (nodes : List IComputedNode) (locations : List ILocation) :
    ((aggregatePass nodes locations).1).map (fun n => n.selfTime) =
      nodes.map (fun n => n.selfTime) := by
  rw [aggregatePass]
  have h : ∀ (l : List Nat) (st : List IComputedNode × List ILocation),
      ((l.foldl (fun (st : List IComputedNode × List ILocation) i =>
        let node := st.1.getD i default
        let r := computeAggregateTime st.1.length i st.1
        let locs := listUpd st.2 node.locationId
          (fun loc => { loc with aggregateTime := loc.aggregateTime + r.1 })
        let locs2 := listUpd locs node.locationId
          (fun loc => { loc with selfTime := loc.selfTime + node.selfTime })
        (r.2, locs2)) st).1).map (fun n => n.selfTime) = st.1.map (fun n => n.selfTime) := by
    intro l
    induction l with
    | nil => intro st; rfl
    | cons i l ih =>
      intro st
      rw [List.foldl_cons, ih]
      exact computeAggregateTime_map (fun n => n.selfTime) (fun n t => rfl) _ _ _
  exact h _ _

/-- Self-time accumulation over an arbitrary list of in-range sample
indices adds the corresponding deltas to the total. -/
theorem accumulate_fold_sum (samples : List Nat) (d : List Int) :
    ∀ (is : List Nat) (nodes : List IComputedNode),
      (∀ i ∈ is, samples.getD i 0 - 1 < nodes.length) →
      (((is.foldl (fun acc i =>
          listUpd acc (samples.getD i 0 - 1)
            (fun n => { n with selfTime := n.selfTime + d.getD (i - 1) 0 })) nodes).map
        (fun n => n.selfTime)).sum)
        = ((nodes.map (fun n => n.selfTime)).sum) + (is.map (fun i => d.getD (i - 1) 0)).sum := by
  intro is
  induction is with
  | nil => intro nodes _; simp
  | cons i is ih =>
    intro nodes h
    rw [List.foldl_cons]
    rw [ih _ (by intro j hj; rw [listUpd_length]; exact h j (List.mem_cons_of_mem _ hj))]
    rw [sum_map_listUpd _ _ (d.getD (i - 1) 0) (fun x => rfl) _ _
      (h i (List.mem_cons_self ..))]
    simp only [List.map_cons, List.sum_cons]
    ring

/-- Summing `d.getD (i-1)` over `i ∈ [s+1, s+1+n)` is the sum of the slice
`d[s..s+n)`. -/
theorem range'_getD_sum (d : List Int) :
    ∀ (n s : Nat), s + n ≤ d.length →
      ((List.range' (s + 1) n).map (fun i => d.getD (i - 1) 0)).sum = ((d.drop s).take n).sum := by
  intro n
  induction n with
  | zero => intro s _; simp
  | succ m ih =>
    intro s hs
    rw [List.range'_succ]
    simp only [List.map_cons, List.sum_cons, Nat.add_sub_cancel]
    have hlt : s < d.length := by omega
    have hdrop : d.drop s = d.get ⟨s, hlt⟩ :: d.drop (s + 1) := List.drop_eq_getElem_cons hlt
    have : (s + 1) + 1 = (s + 1) + 1 := rfl
    rw [show s + 1 + 1 = (s + 1) + 1 from rfl] at *
    rw [ih (s + 1) (by omega)]
    rw [hdrop, List.take_succ_cons, List.sum_cons]
    congr 1
    rw [List.getD_eq_getElem?_getD, List.getElem?_eq_getElem hlt]
    rfl

/-- C1 counterexample: on the spec's own scenario (three-node chain, 1-based
samples `[1,2,3,3]`, deltas `[5,5,5]`) the self times are `[0,5,5]`: the sum
is `10`, not `15 = sum(timeDeltas)`, and the node with raw id 3 ends with
selfTime `5`, not `10` — the loop `for (i = 1; i < timeDeltas.length; i++)`
never attributes the final delta. -/
theorem selfTime_sum_counterexample :
    exScenarioModel.nodes.map (fun n => n.selfTime) = [0, 5, 5] ∧
    (exScenarioModel.nodes.map (fun n => n.selfTime)).sum = 10 ∧
    ([5, 5, 5] : List Int).sum = 15 ∧
    (exScenarioModel.nodes.map (fun n => n.selfTime)).sum ≠ ([5, 5, 5] : List Int).sum ∧
    (exScenarioModel.nodes.getD 2 default).selfTime = 5 := by
  refine ⟨by decide, by decide, by decide, by decide, by decide⟩

/-- C1 (amended): for every model built from a raw profile with both fields
present and in-range samples, the sum of `selfTime` over all computed nodes
equals the sum of `timeDeltas` *without its last entry*: the source
attributes `timeDeltas[i-1]` to the node at `samples[i]` only for
`i ∈ [1, timeDeltas.length)`, so the final delta is dropped (and the first
sample has no preceding delta). -/
theorem selfTime_sum (pr : String → String → String) (mfp : String → String)
    (p : RawProfile) (s : List Nat) (d : List Int)
    (hs : p.samples = some s) (hd : p.timeDeltas = some d)
    (hval : ∀ i, 1 ≤ i → i < d.length → 1 ≤ s.getD i 0 ∧ s.getD i 0 ≤ p.nodes.length) :
    ((buildModel pr mfp p).1.nodes.map (fun n => n.selfTime)).sum =
      (d.take (d.length - 1)).sum := by
  simp only [buildModel, hs, hd]
  rw [aggregatePass_map_selfTime, accumulateSelfTimes]
  have hlen : (fillParents (buildNodeSlots (ensureSourceLocations mfp p).profile.nodes)).length
      = p.nodes.length := by
    rw [fillParents_length, buildNodeSlots_length, ensureSourceLocations_nodes_length]
  rw [accumulate_fold_sum]
  · rw [fillParents_map_selfTime]
    have hzero : ((buildNodeSlots (ensureSourceLocations mfp p).profile.nodes).map
        (fun n => n.selfTime)).sum = 0 := by
      refine List.sum_eq_zero ?_
      intro x hx
      rcases List.mem_map.mp hx with ⟨n, hn, hnx⟩
      rw [← hnx]
      exact buildNodeSlots_selfTime_zero _ n hn
    rw [hzero, zero_add]
    have := range'_getD_sum d (d.length - 1) 0 (by omega)
    simpa using this
  · intro i hi
    rw [hlen]
    rcases List.mem_range'.mp hi with ⟨k, hk, hik⟩
    have h1 : 1 ≤ i := by omega
    have h2 : i < d.length := by omega
    have := hval i h1 h2
    omega

/-- Witness for C1 (amended) at the scenario profile: the sum of self times
is `5 + 5 = 10`, the deltas without the last entry. -/
theorem selfTime_sum_witness :
    (∀ i, 1 ≤ i → i < ([5, 5, 5] : List Int).length →
      1 ≤ ([1, 2, 3, 3] : List Nat).getD i 0 ∧
      ([1, 2, 3, 3] : List Nat).getD i 0 ≤ (exChain3 [1, 2, 3, 3] [5, 5, 5]).nodes.length) ∧
    ((buildModel exRel exPath (exChain3 [1, 2, 3, 3] [5, 5, 5])).1.nodes.map
        (fun n => n.selfTime)).sum =
      (([5, 5, 5] : List Int).take (([5, 5, 5] : List Int).length - 1)).sum :=
  ⟨by decide,
    selfTime_sum exRel exPath (exChain3 [1, 2, 3, 3] [5, 5, 5]) [1, 2, 3, 3] [5, 5, 5]
      rfl rfl (by decide)⟩

/-! ## C3: the aggregate-time invariant and memoization -/

theorem set_getD_eq {α : Type _} [Inhabited α] (l : List α) (i : Nat) (x : α)
    (h : i < l.length) : (l.set i x).getD i default = x := by
  simp [List.getD_eq_getElem?_getD, List.getElem?_set_self', h]

theorem set_getD_ne {α : Type _} [Inhabited α] (l : List α) (i j : Nat) (x : α)
    (h : j ≠ i) : (l.set i x).getD j default = l.getD j default := by
  simp [List.getD_eq_getElem?_getD, List.getElem?_set_ne (Ne.symm h)]

theorem set_getD_self {α : Type _} [Inhabited α] (l : List α) :
    ∀ i : Nat, l.set i (l.getD i default) = l := by
  induction l with
  | nil => intro i; rfl
  | cons a l ih =>
    intro i
    cases i with
    | zero => rfl
    | succ j => simp only [List.getD, List.set_cons_succ]; rw [show (a :: l).get? (j+1) = l.get? j from rfl]; exact congrArg (a :: ·) (ih j)

theorem aggregateValueWith_sum (rec : Nat → Int) :
    ∀ cs : List Nat, aggregateValueWith rec cs = (cs.map rec).sum := by
  intro cs
  induction cs with
  | nil => rfl
  | cons c rest ih => simp [aggregateValueWith, ih]

/-- Every slot of `buildNodeSlots` has zero aggregate time. -/
theorem buildNodeSlots_aggregateTime_zero (rawNodes : List RawNode) :
    ∀ x ∈ buildNodeSlots rawNodes, x.aggregateTime = 0 := by
  rw [buildNodeSlots]
  have h : ∀ (l : List RawNode) (acc : List IComputedNode),
      (∀ x ∈ acc, x.aggregateTime = 0) →
      ∀ x ∈ l.foldl (fun acc node =>
          acc.set (node.id - 1)
            { id := node.id - 1, selfTime := 0, aggregateTime := 0,
              locationId := node.locationId.getD 0, parent := none,
              children := (node.children.getD []).map (· - 1) }) acc,
        x.aggregateTime = 0 := by
    intro l
    induction l with
    | nil => intro acc hacc; exact hacc
    | cons n l ih =>
      intro acc hacc
      rw [List.foldl_cons]
      refine ih _ ?_
      intro x hx
      rcases List.mem_or_eq_of_mem_set hx with hx | hx
      · exact hacc x hx
      · rw [hx]
  refine h _ _ ?_
  intro x hx
  rw [List.eq_of_mem_replicate hx]
  rfl

/-- `fillParents` does not change any node's aggregate time. -/
theorem fillParents_map_aggregateTime (nodes : List IComputedNode) :
    (fillParents nodes).map (fun n => n.aggregateTime) = nodes.map (fun n => n.aggregateTime) := by
  rw [fillParents]
  have hinner : ∀ (cs : List Nat) (acc : List IComputedNode) (id : Nat),
      ((cs.foldl (fun acc2 c => listUpd acc2 c (fun ch => { ch with parent := some id })) acc).map
        (fun n => n.aggregateTime)) = acc.map (fun n => n.aggregateTime) := by
    intro cs
    induction cs with
    | nil => intro acc id; rfl
    | cons c cs ih =>
      intro acc id
      rw [List.foldl_cons, ih, map_listUpd_eq]
      intro x; rfl
  have houter : ∀ (l : List Nat) (acc : List IComputedNode),
      ((l.foldl (fun (acc : List IComputedNode) (i : Nat) =>
          let node := acc.getD i default
          node.children.foldl
            (fun acc2 c => listUpd acc2 c (fun ch => { ch with parent := some node.id })) acc)
          acc).map
        (fun n => n.aggregateTime)) = acc.map (fun n => n.aggregateTime) := by
    intro l
    induction l with
    | nil => intro acc; rfl
    | cons i l ih =>
      intro acc
      rw [List.foldl_cons, ih, hinner]
  exact houter _ _

/-- `fillParents` does not change any node's children. -/
theorem fillParents_map_children (nodes : List IComputedNode) :
    (fillParents nodes).map (fun n => n.children) = nodes.map (fun n => n.children) := by
  rw [fillParents]
  have hinner : ∀ (cs : List Nat) (acc : List IComputedNode) (id : Nat),
      ((cs.foldl (fun acc2 c => listUpd acc2 c (fun ch => { ch with parent := some id })) acc).map
        (fun n => n.children)) = acc.map (fun n => n.children) := by
    intro cs
    induction cs with
    | nil => intro acc id; rfl
    | cons c cs ih =>
      intro acc id
      rw [List.foldl_cons, ih, map_listUpd_eq]
      intro x; rfl
  have houter : ∀ (l : List Nat) (acc : List IComputedNode),
      ((l.foldl (fun (acc : List IComputedNode) (i : Nat) =>
          let node := acc.getD i default
          node.children.foldl
            (fun acc2 c => listUpd acc2 c (fun ch => { ch with parent := some node.id })) acc)
          acc).map
        (fun n => n.children)) = acc.map (fun n => n.children) := by
    intro l
    induction l with
    | nil => intro acc; rfl
    | cons i l ih =>
      intro acc
      rw [List.foldl_cons, ih, hinner]
  exact houter _ _

/-- `accumulateSelfTimes` changes neither children nor aggregate times. -/
theorem accumulateSelfTimes_map {β : Type _} (g : IComputedNode → β)
    (hg : ∀ n t, g { n with selfTime := t } = g n)
    (samples : List Nat) (timeDeltas : List Int) (nodes : List IComputedNode) :
    (accumulateSelfTimes samples timeDeltas nodes).map g = nodes.map g := by
  rw [accumulateSelfTimes]
  have h : ∀ (l : List Nat) (acc : List IComputedNode),
      ((l.foldl (fun acc i =>
        listUpd acc (samples.getD i 0 - 1)
          (fun n => { n with selfTime := n.selfTime + timeDeltas.getD (i - 1) 0 })) acc).map g)
        = acc.map g := by
    intro l
    induction l with
    | nil => intro acc; rfl
    | cons i l ih =>
      intro acc
      rw [List.foldl_cons, ih, map_listUpd_eq]
      intro x; exact hg x _
  exact h _ _

/-- `setAggregate` with value `0` is the identity on a node whose cached
aggregate is already `0`. -/
theorem setAggregate_zero (n : IComputedNode) (h : n.aggregateTime = 0) :
    setAggregate n 0 = n := by
  cases n
  simp_all [setAggregate]

/-- The pure aggregate value is fuel-irrelevant once the fuel exceeds the
node's rank (for a child-closed, rank-decreasing node table). -/
theorem aggregateValue_fuel_eq (base : List IComputedNode) (rank : Nat → Nat)
    (h1 : ∀ i, i < base.length → ∀ c ∈ (base.getD i default).children,
      c < base.length ∧ rank c < rank i) :
    ∀ f i, i < base.length → rank i < f →
      aggregateValue base f i = aggregateValue base (rank i + 1) i := by
  intro f
  induction f using Nat.strong_induction_on with
  | _ f ih =>
    intro i hi hr
    cases f with
    | zero => omega
    | succ g =>
      simp only [aggregateValue]
      congr 1
      have hlist : ∀ cs, (∀ c ∈ cs, c < base.length ∧ rank c < rank i) →
          aggregateValueWith (aggregateValue base g) cs
            = aggregateValueWith (aggregateValue base (rank i)) cs := by
        intro cs
        induction cs with
        | nil => intro _; rfl
        | cons c rest ihc =>
          intro hmem
          have hc := hmem c (List.mem_cons_self _ _)
          simp only [aggregateValueWith]
          rw [ihc (fun x hx => hmem x (List.mem_cons_of_mem _ hx))]
          congr 1
          rw [ih g (Nat.lt_succ_self g) c hc.1 (by omega)]
          rw [ih (rank i) (by omega) c hc.1 hc.2]
      exact hlist _ (h1 i hi)

/-- Unfolding of the pure aggregate value at its canonical fuel: self time
plus the children's canonical aggregate values. -/
theorem aggregateValue_unfold (base : List IComputedNode) (rank : Nat → Nat)
    (h1 : ∀ i, i < base.length → ∀ c ∈ (base.getD i default).children,
      c < base.length ∧ rank c < rank i) :
    ∀ i, i < base.length →
      aggregateValue base (rank i + 1) i =
        (base.getD i default).selfTime +
          (((base.getD i default).children).map
            (fun c => aggregateValue base (rank c + 1) c)).sum := by
  intro i hi
  have hstep : aggregateValue base (rank i + 1) i =
      (base.getD i default).selfTime +
        aggregateValueWith (aggregateValue base (rank i)) (base.getD i default).children := rfl
  rw [hstep, aggregateValueWith_sum]
  congr 1
  refine congrArg List.sum (List.map_congr_left ?_)
  intro c hc
  exact aggregateValue_fuel_eq base rank h1 (rank i) c (h1 i hi c hc).1 (h1 i hi c hc).2

/-- Partial correctness of `computeAggregateTime` over a partially computed
state: with enough fuel it returns the pure aggregate value, writes only
canonical cached values, and caches the value at the requested index. -/
theorem computeAggregateTime_correct (base : List IComputedNode) (rank : Nat → Nat)
    (h1 : ∀ i, i < base.length → ∀ c ∈ (base.getD i default).children,
      c < base.length ∧ rank c < rank i)
    (hbase0 : ∀ j, (base.getD j default).aggregateTime = 0) :
    ∀ f i s, s.length = base.length →
      (∀ j, s.getD j default = base.getD j default ∨
        s.getD j default = setAggregate (base.getD j default) (aggregateValue base (rank j + 1) j)) →
      i < base.length → rank i < f →
      (computeAggregateTime f i s).1 = aggregateValue base (rank i + 1) i ∧
      (computeAggregateTime f i s).2.length = base.length ∧
      (∀ j, (computeAggregateTime f i s).2.getD j default = s.getD j default ∨
        (computeAggregateTime f i s).2.getD j default =
          setAggregate (base.getD j default) (aggregateValue base (rank j + 1) j)) ∧
      (computeAggregateTime f i s).2.getD i default =
        setAggregate (base.getD i default) (aggregateValue base (rank i + 1) i) := by
  intro f
  induction f with
  | zero => intro i s _ _ _ hr; omega
  | succ f ih =>
    intro i s hslen hsinv hi hr
    have hrowinv := hsinv i
    by_cases hrow : (s.getD i default).aggregateTime ≠ 0
    · -- cached: the non-zero cache must be the canonical value
      have hcase : s.getD i default =
          setAggregate (base.getD i default) (aggregateValue base (rank i + 1) i) := by
        rcases hrowinv with h | h
        · exact absurd (h ▸ hbase0 i) hrow
        · exact h
      have hres : computeAggregateTime (f + 1) i s = ((s.getD i default).aggregateTime, s) := by
        simp only [computeAggregateTime]
        rw [if_pos hrow]
      rw [hres]
      refine ⟨?_, hslen, fun j => Or.inl rfl, hcase⟩
      rw [hcase]
      rfl
    · -- not cached: the slot still holds the base node
      push_neg at hrow
      have hrowbase : s.getD i default = base.getD i default := by
        rcases hrowinv with h | h
        · exact h
        · have hz : aggregateValue base (rank i + 1) i = 0 := by
            have := congrArg IComputedNode.aggregateTime h
            simpa [setAggregate] using hrow ▸ this.symm
          rw [h, hz, setAggregate_zero _ (hbase0 i)]
      -- the child loop over a partially computed state
      have hchild : ∀ (cs : List Nat), (∀ c ∈ cs, c < base.length ∧ rank c < f) →
          ∀ s', s'.length = base.length →
          (∀ j, s'.getD j default = base.getD j default ∨
            s'.getD j default = setAggregate (base.getD j default)
              (aggregateValue base (rank j + 1) j)) →
          (childAggregatesWith (computeAggregateTime f) cs s').1 =
            (cs.map (fun c => aggregateValue base (rank c + 1) c)).sum ∧
          (childAggregatesWith (computeAggregateTime f) cs s').2.length = base.length ∧
          (∀ j, (childAggregatesWith (computeAggregateTime f) cs s').2.getD j default =
              s'.getD j default ∨
            (childAggregatesWith (computeAggregateTime f) cs s').2.getD j default =
              setAggregate (base.getD j default) (aggregateValue base (rank j + 1) j)) := by
        intro cs
        induction cs with
        | nil =>
          intro _ s' hlen _
          exact ⟨rfl, hlen, fun j => Or.inl rfl⟩
        | cons c rest ihc =>
          intro hmem s' hlen hinv
          have hc := hmem c (List.mem_cons_self _ _)
          have hrec := ih c s' hlen hinv hc.1 hc.2
          have hinv' : ∀ j, (computeAggregateTime f c s').2.getD j default =
              base.getD j default ∨
              (computeAggregateTime f c s').2.getD j default =
                setAggregate (base.getD j default) (aggregateValue base (rank j + 1) j) := by
            intro j
            rcases hrec.2.2.1 j with h | h
            · rw [h]; exact hinv j
            · exact Or.inr h
          have hrest := ihc (fun x hx => hmem x (List.mem_cons_of_mem _ hx))
            (computeAggregateTime f c s').2 hrec.2.1 hinv'
          simp only [childAggregatesWith]
          refine ⟨by rw [hrec.1, hrest.1, List.map_cons, List.sum_cons], hrest.2.1, ?_⟩
          intro j
          rcases hrest.2.2 j with h | h
          · rcases hrec.2.2.1 j with h2 | h2
            · exact Or.inl (h.trans h2)
            · exact Or.inr (h.trans h2)
          · exact Or.inr h
      have hmemchild : ∀ c ∈ (s.getD i default).children, c < base.length ∧ rank c < f := by
        rw [hrowbase]
        intro c hc
        have := h1 i hi c hc
        omega
      have hc := hchild (s.getD i default).children hmemchild s hslen hsinv
      have hres : computeAggregateTime (f + 1) i s =
          ((s.getD i default).selfTime +
              (childAggregatesWith (computeAggregateTime f) (s.getD i default).children s).1,
            (childAggregatesWith (computeAggregateTime f) (s.getD i default).children s).2.set i
              { s.getD i default with aggregateTime :=
                  (s.getD i default).selfTime +
                    (childAggregatesWith (computeAggregateTime f)
                      (s.getD i default).children s).1 }) := by
        simp only [computeAggregateTime]
        rw [if_neg (by simpa using hrow)]
      have htotal : (s.getD i default).selfTime +
          (childAggregatesWith (computeAggregateTime f) (s.getD i default).children s).1 =
            aggregateValue base (rank i + 1) i := by
        rw [hc.1, hrowbase, aggregateValue_unfold base rank h1 i hi]
      rw [hres]
      refine ⟨htotal, ?_, ?_, ?_⟩
      · rw [List.length_set]
        exact hc.2.1
      · intro j
        by_cases hj : j = i
        · subst hj
          refine Or.inr ?_
          rw [set_getD_eq _ _ _ (by rw [hc.2.1]; exact hi)]
          rw [htotal, hrowbase]
          rfl
        · rw [set_getD_ne _ _ _ _ hj]
          rcases hc.2.2 j with h | h
          · exact Or.inl h
          · exact Or.inr h
      · rw [set_getD_eq _ _ _ (by rw [hc.2.1]; exact hi)]
        rw [htotal, hrowbase]
        rfl

/-- On a fully computed state, `computeAggregateTime` returns the cached
canonical value and leaves the state unchanged (the truthiness re-computation
of a zero cache recomputes the same zero and writes it back unchanged). -/
theorem computeAggregateTime_noop (base : List IComputedNode) (rank : Nat → Nat)
    (h1 : ∀ i, i < base.length → ∀ c ∈ (base.getD i default).children,
      c < base.length ∧ rank c < rank i) :
    ∀ f i s, s.length = base.length →
      (∀ j, s.getD j default = setAggregate (base.getD j default)
        (aggregateValue base (rank j + 1) j)) →
      i < base.length → rank i < f →
      computeAggregateTime f i s = (aggregateValue base (rank i + 1) i, s) := by
  intro f
  induction f with
  | zero => intro i s _ _ _ hr; omega
  | succ f ih =>
    intro i s hslen hcomp hi hr
    by_cases hrow : (s.getD i default).aggregateTime ≠ 0
    · have hres : computeAggregateTime (f + 1) i s = ((s.getD i default).aggregateTime, s) := by
        simp only [computeAggregateTime]
        rw [if_pos hrow]
      rw [hres, hcomp i]
      rfl
    · push_neg at hrow
      have hz : aggregateValue base (rank i + 1) i = 0 := by
        have := congrArg IComputedNode.aggregateTime (hcomp i)
        simpa [setAggregate] using hrow ▸ this.symm
      have hchild : ∀ cs, (∀ c ∈ cs, c < base.length ∧ rank c < f) →
          childAggregatesWith (computeAggregateTime f) cs s =
            ((cs.map (fun c => aggregateValue base (rank c + 1) c)).sum, s) := by
        intro cs
        induction cs with
        | nil => intro _; simp [childAggregatesWith]
        | cons c rest ihc =>
          intro hmem
          have hc := hmem c (List.mem_cons_self _ _)
          simp only [childAggregatesWith]
          rw [ih c s hslen hcomp hc.1 hc.2,
            ihc (fun x hx => hmem x (List.mem_cons_of_mem _ hx))]
          simp [List.sum_cons]
      have hmemchild : ∀ c ∈ (s.getD i default).children, c < base.length ∧ rank c < f := by
        have hch : (s.getD i default).children = (base.getD i default).children := by
          rw [hcomp i]; rfl
        rw [hch]
        intro c hc
        have := h1 i hi c hc
        omega
      have hres : computeAggregateTime (f + 1) i s =
          ((s.getD i default).selfTime +
              (childAggregatesWith (computeAggregateTime f) (s.getD i default).children s).1,
            (childAggregatesWith (computeAggregateTime f) (s.getD i default).children s).2.set i
              { s.getD i default with aggregateTime :=
                  (s.getD i default).selfTime +
                    (childAggregatesWith (computeAggregateTime f)
                      (s.getD i default).children s).1 }) := by
        simp only [computeAggregateTime]
        rw [if_neg (by simpa using hrow)]
      rw [hres, hchild _ hmemchild]
      have htotal : (s.getD i default).selfTime +
          ((s.getD i default).children.map
            (fun c => aggregateValue base (rank c + 1) c)).sum =
          aggregateValue base (rank i + 1) i := by
        have hch : (s.getD i default).children = (base.getD i default).children := by
          rw [hcomp i]; rfl
        have hself : (s.getD i default).selfTime = (base.getD i default).selfTime := by
          rw [hcomp i]; rfl
        rw [hch, hself, aggregateValue_unfold base rank h1 i hi]
      dsimp only
      rw [htotal]
      have hval : ({ s.getD i default with aggregateTime := aggregateValue base (rank i + 1) i })
          = s.getD i default := by
        rw [hcomp i]
        simp [setAggregate]
      rw [hval, set_getD_self]

/-- The aggregate pass does not change any node's children. -/
theorem aggregatePass_map_children (nodes : List IComputedNode) (locations : List ILocation) :
    ((aggregatePass nodes locations).1).map (fun n => n.children) =
      nodes.map (fun n => n.children) := by
  rw [aggregatePass]
  have h : ∀ (l : List Nat) (st : List IComputedNode × List ILocation),
      ((l.foldl (fun (st : List IComputedNode × List ILocation) i =>
        let node := st.1.getD i default
        let r := computeAggregateTime st.1.length i st.1
        let locs := listUpd st.2 node.locationId
          (fun loc => { loc with aggregateTime := loc.aggregateTime + r.1 })
        let locs2 := listUpd locs node.locationId
          (fun loc => { loc with selfTime := loc.selfTime + node.selfTime })
        (r.2, locs2)) st).1).map (fun n => n.children) = st.1.map (fun n => n.children) := by
    intro l
    induction l with
    | nil => intro st; rfl
    | cons i l ih =>
      intro st
      rw [List.foldl_cons, ih]
      exact computeAggregateTime_map (fun n => n.children) (fun n t => rfl) _ _ _
  exact h _ _

/-- The node component of the aggregate pass is an independent fold of
`computeAggregateTime` over the node table (the location updates do not feed
back into it). -/
theorem aggregatePass_nodes_eq_fold :
    ∀ (l : List Nat) (st : List IComputedNode × List ILocation),
      (l.foldl (fun (st : List IComputedNode × List ILocation) i =>
        let node := st.1.getD i default
        let r := computeAggregateTime st.1.length i st.1
        let locs := listUpd st.2 node.locationId
          (fun loc => { loc with aggregateTime := loc.aggregateTime + r.1 })
        let locs2 := listUpd locs node.locationId
          (fun loc => { loc with selfTime := loc.selfTime + node.selfTime })
        (r.2, locs2)) st).1 =
      l.foldl (fun (s : List IComputedNode) i => (computeAggregateTime s.length i s).2) st.1 := by
  intro l
  induction l with
  | nil => intro st; rfl
  | cons i l ih =>
    intro st
    rw [List.foldl_cons, List.foldl_cons, ih]

/-- The node fold of the aggregate pass over any in-range index list:
starting from an uncomputed base state, it caches the canonical aggregate
value at every processed index while only ever writing canonical values. -/
theorem aggregatePass_fold_nodes (base : List IComputedNode) (rank : Nat → Nat)
    (h1 : ∀ i, i < base.length → ∀ c ∈ (base.getD i default).children,
      c < base.length ∧ rank c < rank i)
    (hbase0 : ∀ j, (base.getD j default).aggregateTime = 0)
    (h2 : ∀ i, i < base.length → rank i < base.length) :
    ∀ (l : List Nat) (s : List IComputedNode),
      s.length = base.length →
      (∀ j, s.getD j default = base.getD j default ∨
        s.getD j default = setAggregate (base.getD j default)
          (aggregateValue base (rank j + 1) j)) →
      (∀ i ∈ l, i < base.length) →
      (l.foldl (fun (s : List IComputedNode) i =>
          (computeAggregateTime s.length i s).2) s).length = base.length ∧
      (∀ j, (l.foldl (fun (s : List IComputedNode) i =>
          (computeAggregateTime s.length i s).2) s).getD j default = s.getD j default ∨
        (l.foldl (fun (s : List IComputedNode) i =>
          (computeAggregateTime s.length i s).2) s).getD j default =
          setAggregate (base.getD j default) (aggregateValue base (rank j + 1) j)) ∧
      (∀ i ∈ l, (l.foldl (fun (s : List IComputedNode) i =>
          (computeAggregateTime s.length i s).2) s).getD i default =
          setAggregate (base.getD i default) (aggregateValue base (rank i + 1) i)) := by
  intro l
  induction l with
  | nil =>
    intro s hlen hinv _
    exact ⟨hlen, fun j => Or.inl rfl, fun i hi => absurd hi (List.not_mem_nil i)⟩
  | cons i l ih =>
    intro s hlen hinv hmem
    have hi := hmem i (List.mem_cons_self _ _)
    have hcorr := computeAggregateTime_correct base rank h1 hbase0 s.length i s
      hlen hinv hi (by rw [hlen]; exact h2 i hi)
    rw [List.foldl_cons]
    have hnext := ih (computeAggregateTime s.length i s).2 hcorr.2.1
      (fun j => by
        rcases hcorr.2.2.1 j with h | h
        · rw [h]; exact hinv j
        · exact Or.inr h)
      (fun x hx => hmem x (List.mem_cons_of_mem _ hx))
    refine ⟨hnext.1, ?_, ?_⟩
    · intro j
      rcases hnext.2.1 j with h | h
      · rcases hcorr.2.2.1 j with h2j | h2j
        · exact Or.inl (h.trans h2j)
        · exact Or.inr (h.trans h2j)
      · exact Or.inr h
    · intro k hk
      rcases List.mem_cons.mp hk with hk | hk
      · subst hk
        rcases hnext.2.1 k with h | h
        · rw [h]
          exact hcorr.2.2.2
        · exact h
      · exact hnext.2.2 k hk

/-- C3: for every computed node of a model returned by `buildModel` (from a
raw profile with both fields present whose child graph is acyclic, witnessed
by a rank function), `aggregateTime` equals `selfTime` plus the sum of the
children's `aggregateTime` (so a childless node has `aggregateTime =
selfTime`), and re-invoking the memoized `computeAggregateTime` on the
already-computed node table returns the cached value and leaves the table
unchanged. -/
theorem aggregate_time_invariant (pr : String → String → String) (mfp : String → String)
    (p : RawProfile) (s : List Nat) (d : List Int)
    (hs : p.samples = some s) (hd : p.timeDeltas = some d) (rank : Nat → Nat)
    (hchild : ∀ i, i < (buildModel pr mfp p).1.nodes.length →
      ∀ c ∈ ((buildModel pr mfp p).1.nodes.getD i default).children,
        c < (buildModel pr mfp p).1.nodes.length ∧ rank c < rank i)
    (hrank : ∀ i, i < (buildModel pr mfp p).1.nodes.length →
      rank i < (buildModel pr mfp p).1.nodes.length) :
    (∀ i, i < (buildModel pr mfp p).1.nodes.length →
      ((buildModel pr mfp p).1.nodes.getD i default).aggregateTime =
        ((buildModel pr mfp p).1.nodes.getD i default).selfTime +
          (((buildModel pr mfp p).1.nodes.getD i default).children.map
            (fun c => ((buildModel pr mfp p).1.nodes.getD c default).aggregateTime)).sum) ∧
    (∀ i, i < (buildModel pr mfp p).1.nodes.length →
      computeAggregateTime (buildModel pr mfp p).1.nodes.length i (buildModel pr mfp p).1.nodes =
        (((buildModel pr mfp p).1.nodes.getD i default).aggregateTime,
          (buildModel pr mfp p).1.nodes)) := by
  obtain ⟨locs0, hnodes⟩ : ∃ locs0, (buildModel pr mfp p).1.nodes =
      (aggregatePass (accumulateSelfTimes s d (fillParents (buildNodeSlots
        (ensureSourceLocations mfp p).profile.nodes))) locs0).1 :=
    ⟨_, by simp only [buildModel, hs, hd]; rfl⟩
  have hlen : (buildModel pr mfp p).1.nodes.length =
      (accumulateSelfTimes s d (fillParents (buildNodeSlots
        (ensureSourceLocations mfp p).profile.nodes))).length := by
    rw [hnodes, aggregatePass_fst_length]
  -- the base table has zero cached aggregates
  have hmapagg : (accumulateSelfTimes s d (fillParents (buildNodeSlots
      (ensureSourceLocations mfp p).profile.nodes))).map (fun n => n.aggregateTime) =
      (buildNodeSlots (ensureSourceLocations mfp p).profile.nodes).map
        (fun n => n.aggregateTime) := by
    rw [accumulateSelfTimes_map (fun n => n.aggregateTime) (fun n t => rfl),
      fillParents_map_aggregateTime]
  have hagg0 : ∀ j, ((accumulateSelfTimes s d (fillParents (buildNodeSlots
      (ensureSourceLocations mfp p).profile.nodes))).getD j default).aggregateTime = 0 := by
    intro j
    have h := getD_map_eq (fun n => n.aggregateTime)
      (accumulateSelfTimes s d (fillParents (buildNodeSlots
        (ensureSourceLocations mfp p).profile.nodes))) default j
    have h2 := getD_map_eq (fun n => n.aggregateTime)
      (buildNodeSlots (ensureSourceLocations mfp p).profile.nodes) default j
    rw [hmapagg] at h
    rw [h2] at h
    rw [← h]
    by_cases hj : j < (buildNodeSlots (ensureSourceLocations mfp p).profile.nodes).length
    · refine buildNodeSlots_aggregateTime_zero ((ensureSourceLocations mfp p).profile.nodes)
        ((buildNodeSlots (ensureSourceLocations mfp p).profile.nodes).getD j default) ?_
      rw [List.getD_eq_getElem?_getD, List.getElem?_eq_getElem hj]
      exact List.getElem_mem ..
    · rw [List.getD_eq_getElem?_getD, List.getElem?_eq_none (by omega)]
      rfl
  -- children agree between the final table and the base table
  have hmapch : (buildModel pr mfp p).1.nodes.map (fun n => n.children) =
      (accumulateSelfTimes s d (fillParents (buildNodeSlots
        (ensureSourceLocations mfp p).profile.nodes))).map (fun n => n.children) := by
    rw [hnodes, aggregatePass_map_children]
  have hch : ∀ j, ((buildModel pr mfp p).1.nodes.getD j default).children =
      ((accumulateSelfTimes s d (fillParents (buildNodeSlots
        (ensureSourceLocations mfp p).profile.nodes))).getD j default).children := by
    intro j
    have h1 := getD_map_eq (fun n => n.children) (buildModel pr mfp p).1.nodes default j
    have h2 := getD_map_eq (fun n => n.children)
      (accumulateSelfTimes s d (fillParents (buildNodeSlots
        (ensureSourceLocations mfp p).profile.nodes))) default j
    rw [hmapch, h2] at h1
    exact h1.symm
  -- the rank hypotheses transferred to the base table
  have h1base : ∀ i, i < (accumulateSelfTimes s d (fillParents (buildNodeSlots
      (ensureSourceLocations mfp p).profile.nodes))).length →
      ∀ c ∈ ((accumulateSelfTimes s d (fillParents (buildNodeSlots
        (ensureSourceLocations mfp p).profile.nodes))).getD i default).children,
        c < (accumulateSelfTimes s d (fillParents (buildNodeSlots
          (ensureSourceLocations mfp p).profile.nodes))).length ∧ rank c < rank i := by
    intro i hi c hc
    have := hchild i (by omega) c (by rw [hch]; exact hc)
    omega
  have h2base : ∀ i, i < (accumulateSelfTimes s d (fillParents (buildNodeSlots
      (ensureSourceLocations mfp p).profile.nodes))).length →
      rank i < (accumulateSelfTimes s d (fillParents (buildNodeSlots
        (ensureSourceLocations mfp p).profile.nodes))).length := by
    intro i hi
    have := hrank i (by omega)
    omega
  -- run the aggregate pass
  have hfold : (buildModel pr mfp p).1.nodes =
      (List.range (accumulateSelfTimes s d (fillParents (buildNodeSlots
        (ensureSourceLocations mfp p).profile.nodes))).length).foldl
        (fun (s : List IComputedNode) i => (computeAggregateTime s.length i s).2)
        (accumulateSelfTimes s d (fillParents (buildNodeSlots
          (ensureSourceLocations mfp p).profile.nodes))) := by
    rw [hnodes, aggregatePass, aggregatePass_nodes_eq_fold]
  have hmain := aggregatePass_fold_nodes _ rank h1base hagg0 h2base
    (List.range (accumulateSelfTimes s d (fillParents (buildNodeSlots
      (ensureSourceLocations mfp p).profile.nodes))).length)
    (accumulateSelfTimes s d (fillParents (buildNodeSlots
      (ensureSourceLocations mfp p).profile.nodes)))
    rfl (fun j => Or.inl rfl) (fun i hi => List.mem_range.mp hi)
  -- every slot of the final table holds the canonical cached value
  have hcanon : ∀ j, (buildModel pr mfp p).1.nodes.getD j default =
      setAggregate ((accumulateSelfTimes s d (fillParents (buildNodeSlots
        (ensureSourceLocations mfp p).profile.nodes))).getD j default)
        (aggregateValue (accumulateSelfTimes s d (fillParents (buildNodeSlots
          (ensureSourceLocations mfp p).profile.nodes))) (rank j + 1) j) := by
    intro j
    by_cases hj : j < (accumulateSelfTimes s d (fillParents (buildNodeSlots
      (ensureSourceLocations mfp p).profile.nodes))).length
    · rw [hfold]
      exact hmain.2.2 j (List.mem_range.mpr hj)
    · have hoob : (accumulateSelfTimes s d (fillParents (buildNodeSlots
          (ensureSourceLocations mfp p).profile.nodes))).getD j default = default := by
        rw [List.getD_eq_getElem?_getD, List.getElem?_eq_none (by omega)]
        rfl
      have hmoob : (buildModel pr mfp p).1.nodes.getD j default = default := by
        rw [List.getD_eq_getElem?_getD, List.getElem?_eq_none (by omega)]
        rfl
      have hA0 : aggregateValue (accumulateSelfTimes s d (fillParents (buildNodeSlots
          (ensureSourceLocations mfp p).profile.nodes))) (rank j + 1) j = 0 := by
        have hstep : aggregateValue (accumulateSelfTimes s d (fillParents (buildNodeSlots
            (ensureSourceLocations mfp p).profile.nodes))) (rank j + 1) j =
            ((accumulateSelfTimes s d (fillParents (buildNodeSlots
              (ensureSourceLocations mfp p).profile.nodes))).getD j default).selfTime +
              aggregateValueWith (aggregateValue (accumulateSelfTimes s d (fillParents
                (buildNodeSlots (ensureSourceLocations mfp p).profile.nodes))) (rank j))
                ((accumulateSelfTimes s d (fillParents (buildNodeSlots
                  (ensureSourceLocations mfp p).profile.nodes))).getD j default).children := rfl
        rw [hstep, hoob]
        rfl
      rw [hmoob, hoob, hA0, setAggregate_zero _ rfl]
  refine ⟨?_, ?_⟩
  · -- the aggregate-time equation
    intro i hi
    have hib : i < (accumulateSelfTimes s d (fillParents (buildNodeSlots
        (ensureSourceLocations mfp p).profile.nodes))).length := by omega
    have hagg_i : ((buildModel pr mfp p).1.nodes.getD i default).aggregateTime =
        aggregateValue (accumulateSelfTimes s d (fillParents (buildNodeSlots
          (ensureSourceLocations mfp p).profile.nodes))) (rank i + 1) i := by
      rw [hcanon i]
      rfl
    have hself_i : ((buildModel pr mfp p).1.nodes.getD i default).selfTime =
        ((accumulateSelfTimes s d (fillParents (buildNodeSlots
          (ensureSourceLocations mfp p).profile.nodes))).getD i default).selfTime := by
      rw [hcanon i]
      rfl
    rw [hagg_i, hself_i, hch i,
      aggregateValue_unfold _ rank h1base i hib]
    congr 1
    refine congrArg List.sum (List.map_congr_left ?_)
    intro c _
    rw [hcanon c]
    rfl
  · -- re-invocation is a cached no-op
    intro i hi
    have hib : i < (accumulateSelfTimes s d (fillParents (buildNodeSlots
        (ensureSourceLocations mfp p).profile.nodes))).length := by omega
    have hres := computeAggregateTime_noop _ rank h1base
      (accumulateSelfTimes s d (fillParents (buildNodeSlots
        (ensureSourceLocations mfp p).profile.nodes))).length i
      (buildModel pr mfp p).1.nodes (by omega) hcanon hib (h2base i hib)
    rw [hlen, hres, hcanon i]
    rfl

/-- Witness for C3 at the scenario chain profile, with rank `i ↦ 2 - i`. -/
theorem aggregate_time_invariant_witness :
    ((∀ i, i < (buildModel exRel exPath (exChain3 [1, 2, 3, 3] [5, 5, 5])).1.nodes.length →
        ∀ c ∈ ((buildModel exRel exPath
            (exChain3 [1, 2, 3, 3] [5, 5, 5])).1.nodes.getD i default).children,
          c < (buildModel exRel exPath (exChain3 [1, 2, 3, 3] [5, 5, 5])).1.nodes.length ∧
            2 - c < 2 - i) ∧
      (∀ i, i < (buildModel exRel exPath (exChain3 [1, 2, 3, 3] [5, 5, 5])).1.nodes.length →
        2 - i < (buildModel exRel exPath (exChain3 [1, 2, 3, 3] [5, 5, 5])).1.nodes.length)) ∧
    ((∀ i, i < (buildModel exRel exPath (exChain3 [1, 2, 3, 3] [5, 5, 5])).1.nodes.length →
        ((buildModel exRel exPath
            (exChain3 [1, 2, 3, 3] [5, 5, 5])).1.nodes.getD i default).aggregateTime =
          ((buildModel exRel exPath
              (exChain3 [1, 2, 3, 3] [5, 5, 5])).1.nodes.getD i default).selfTime +
            (((buildModel exRel exPath
                (exChain3 [1, 2, 3, 3] [5, 5, 5])).1.nodes.getD i default).children.map
              (fun c => ((buildModel exRel exPath
                (exChain3 [1, 2, 3, 3] [5, 5, 5])).1.nodes.getD c default).aggregateTime)).sum) ∧
      (∀ i, i < (buildModel exRel exPath (exChain3 [1, 2, 3, 3] [5, 5, 5])).1.nodes.length →
        computeAggregateTime
            (buildModel exRel exPath (exChain3 [1, 2, 3, 3] [5, 5, 5])).1.nodes.length i
            (buildModel exRel exPath (exChain3 [1, 2, 3, 3] [5, 5, 5])).1.nodes =
          (((buildModel exRel exPath
              (exChain3 [1, 2, 3, 3] [5, 5, 5])).1.nodes.getD i default).aggregateTime,
            (buildModel exRel exPath (exChain3 [1, 2, 3, 3] [5, 5, 5])).1.nodes))) :=
  ⟨⟨by decide, by decide⟩,
    aggregate_time_invariant exRel exPath (exChain3 [1, 2, 3, 3] [5, 5, 5]) [1, 2, 3, 3]
      [5, 5, 5] rfl rfl (fun i => 2 - i) (by decide) (by decide)⟩

/-! ## Row access and update lemmas for the merge -/

@[simp] theorem setRow_length (cols : List IColumn) (x y : Nat) (r : Row) :
    (setRow cols x y r).length = cols.length := by
  simp [setRow]

@[simp] theorem accumulateInto_length (cols : List IColumn) (t y : Nat) (times : Int × Int) :
    (accumulateInto cols t y times).length = cols.length := by
  simp [accumulateInto]

theorem getD_listUpd_col_ne (cols : List IColumn) (x : Nat) (f : IColumn → IColumn)
    (z : Nat) (h : z ≠ x) : (listUpd cols x f).getD z default = cols.getD z default :=
  listUpd_getD_ne cols x z f h

theorem rowAt_eq_getD (cols : List IColumn) (x y : Nat) (hx : x < cols.length) :
    rowAt cols x y = (cols.getD x default).rows[y]? := by
  rw [rowAt, List.getD_eq_getElem?_getD, List.getElem?_eq_getElem hx]
  rfl

theorem rowAt_oob (cols : List IColumn) (x y : Nat) (hx : cols.length ≤ x) :
    rowAt cols x y = none := by
  rw [rowAt, List.getElem?_eq_none hx]
  rfl

theorem rowAt_listUpd_ne (cols : List IColumn) (x : Nat) (f : IColumn → IColumn)
    (z w : Nat) (h : z ≠ x) : rowAt (listUpd cols x f) z w = rowAt cols z w := by
  by_cases hz : z < cols.length
  · rw [rowAt_eq_getD _ _ _ (by simpa using hz), rowAt_eq_getD _ _ _ hz,
      getD_listUpd_col_ne _ _ _ _ h]
  · rw [rowAt_oob _ _ _ (by simpa using Nat.le_of_not_lt hz),
      rowAt_oob _ _ _ (Nat.le_of_not_lt hz)]

theorem rowAt_setRow_ne (cols : List IColumn) (x y : Nat) (r : Row) (z w : Nat)
    (h : z ≠ x ∨ w ≠ y) : rowAt (setRow cols x y r) z w = rowAt cols z w := by
  rcases h with h | h
  · exact rowAt_listUpd_ne _ _ _ _ _ h
  · by_cases hz : z = x
    · subst hz
      by_cases hlt : z < cols.length
      · rw [rowAt_eq_getD _ _ _ (by simpa using hlt), rowAt_eq_getD _ _ _ hlt, setRow,
          listUpd_getD_eq _ _ _ hlt]
        exact List.getElem?_set_ne (Ne.symm h)
      · rw [rowAt_oob _ _ _ (by simpa using Nat.le_of_not_lt hlt),
          rowAt_oob _ _ _ (Nat.le_of_not_lt hlt)]
    · exact rowAt_listUpd_ne _ _ _ _ _ hz

theorem rowAt_setRow_eq (cols : List IColumn) (x y : Nat) (r : Row) (r0 : Row)
    (h : rowAt cols x y = some r0) : rowAt (setRow cols x y r) x y = some r := by
  have hx : x < cols.length := by
    by_contra hx
    rw [rowAt_oob _ _ _ (Nat.le_of_not_lt hx)] at h
    exact Option.noConfusion h
  have hy : y < (cols.getD x default).rows.length := by
    by_contra hy
    rw [rowAt_eq_getD _ _ _ hx, List.getElem?_eq_none (Nat.le_of_not_lt hy)] at h
    exact Option.noConfusion h
  rw [rowAt_eq_getD _ _ _ (by simpa using hx), setRow, listUpd_getD_eq _ _ _ hx]
  exact List.getElem?_set_eq_of_lt _ hy

theorem rowAt_accumulateInto_ne (cols : List IColumn) (t y : Nat) (times : Int × Int)
    (z w : Nat) (h : z ≠ t ∨ w ≠ y) :
    rowAt (accumulateInto cols t y times) z w = rowAt cols z w := by
  rcases h with h | h
  · exact rowAt_listUpd_ne _ _ _ _ _ h
  · by_cases hz : z = t
    · subst hz
      by_cases hlt : z < cols.length
      · rw [rowAt_eq_getD _ _ _ (by simpa using hlt), rowAt_eq_getD _ _ _ hlt, accumulateInto,
          listUpd_getD_eq _ _ _ hlt]
        exact List.getElem?_set_ne (Ne.symm h)
      · rw [rowAt_oob _ _ _ (by simpa using Nat.le_of_not_lt hlt),
          rowAt_oob _ _ _ (Nat.le_of_not_lt hlt)]
    · exact rowAt_listUpd_ne _ _ _ _ _ hz

theorem rowAt_accumulateInto_cell (cols : List IColumn) (t y : Nat) (times : Int × Int)
    (c : ColCell) (h : rowAt cols t y = some (Row.cell c)) :
    rowAt (accumulateInto cols t y times) t y =
      some (Row.cell { c with selfTime := c.selfTime + times.1,
                              aggregateTime := c.aggregateTime + times.2 }) := by
  have ht : t < cols.length := by
    by_contra hx
    rw [rowAt_oob _ _ _ (Nat.le_of_not_lt hx)] at h
    exact Option.noConfusion h
  have hy : y < (cols.getD t default).rows.length := by
    by_contra hy
    rw [rowAt_eq_getD _ _ _ ht, List.getElem?_eq_none (Nat.le_of_not_lt hy)] at h
    exact Option.noConfusion h
  have hget : (cols.getD t default).rows.getD y default = Row.cell c := by
    rw [rowAt_eq_getD _ _ _ ht] at h
    rw [List.getD_eq_getElem?_getD, h]
    rfl
  rw [rowAt_eq_getD _ _ _ (by simpa using ht), accumulateInto, listUpd_getD_eq _ _ _ ht]
  simp only [hget]
  exact List.getElem?_set_eq_of_lt _ hy

/-! ## `refSum` bookkeeping lemmas -/

/-- `refSum` only depends on which columns reference `w` at row `y`. -/
theorem refSum_iff (orig cols cols' : List IColumn) (w y : Nat) (f : ColCell → Int)
    (hlen : cols'.length = cols.length)
    (h : ∀ z, z < cols.length →
      (rowAt cols' z y = some (Row.ref w) ↔ rowAt cols z y = some (Row.ref w))) :
    refSum orig cols' w y f = refSum orig cols w y f := by
  unfold refSum
  rw [hlen]
  refine Finset.sum_congr ?_ (fun _ _ => rfl)
  refine Finset.filter_congr ?_
  intro z hz
  rw [h z (Finset.mem_range.mp hz)]

/-- Adding one new reference to `w` (at column `x`, previously not a
reference) adds that column's original value to `refSum`. -/
theorem refSum_insert (orig cols cols' : List IColumn) (w y x : Nat) (f : ColCell → Int)
    (hlen : cols'.length = cols.length) (hx : x < cols.length)
    (hnew : rowAt cols' x y = some (Row.ref w))
    (hold : ∀ n, rowAt cols x y ≠ some (Row.ref n))
    (hrow : ∀ z, z ≠ x →
      (rowAt cols' z y = some (Row.ref w) ↔ rowAt cols z y = some (Row.ref w))) :
    refSum orig cols' w y f = refSum orig cols w y f + cellVal orig x y f := by
  unfold refSum
  rw [hlen]
  have hset : (Finset.range cols.length).filter
      (fun z => rowAt cols' z y = some (Row.ref w)) =
      insert x ((Finset.range cols.length).filter
        (fun z => rowAt cols z y = some (Row.ref w))) := by
    ext z
    simp only [Finset.mem_filter, Finset.mem_insert, Finset.mem_range]
    constructor
    · rintro ⟨hzl, hzr⟩
      by_cases hzx : z = x
      · exact Or.inl hzx
      · exact Or.inr ⟨hzl, (hrow z hzx).mp hzr⟩
    · rintro (hzx | ⟨hzl, hzr⟩)
      · exact ⟨hzx ▸ hx, hzx ▸ hnew⟩
      · by_cases hzx : z = x
        · exact absurd (hzx ▸ hzr) (hold w)
        · exact ⟨hzl, (hrow z hzx).mpr hzr⟩
  rw [hset, Finset.sum_insert (by
    simp only [Finset.mem_filter, Finset.mem_range, not_and]
    intro _
    exact hold w)]
  ring

/-! ## `MergeBlocked` helper lemmas -/

/-- A column whose row 0 carries no id (a back-reference or an absent row)
is blocked, provided previous-column back-references resolve to cells. -/
theorem mergeBlocked_of_rowId_none (cols : List IColumn) (x : Nat)
    (hid : rowId (rowAt cols x 0) = none)
    (hres : ∀ n, rowAt cols (x - 1) 0 = some (Row.ref n) →
      ∃ c, rowAt cols n 0 = some (Row.cell c)) :
    MergeBlocked cols x := by
  constructor
  · intro n hn
    obtain ⟨c, hc⟩ := hres n hn
    rw [hid, hc]
    simp [rowId]
  · intro pc _
    rw [hid]
    simp

/-- A `break` of the merge step at row 0 means the column is blocked. -/
theorem mergeBlocked_of_step_none (cols : List IColumn) (x : Nat)
    (h : mergeRowStep cols x 0 = none) : MergeBlocked cols x := by
  constructor
  · intro n hn
    simp only [mergeRowStep, hn] at h
    intro heq
    rw [if_pos heq] at h
    exact Option.noConfusion h
  · intro pc hpc
    simp only [mergeRowStep, hpc] at h
    intro heq
    rw [if_pos heq] at h
    exact Option.noConfusion h

/-- Transfer `MergeBlocked` along a state change that does not change row-0
reference structure or row-0 cell ids away from column `x`. -/
theorem mergeBlocked_transfer (cols cols' : List IColumn) (z x : Nat)
    (hz : z ≠ x) (hz1 : z - 1 ≠ x)
    (htgt : ∀ n, rowAt cols (z - 1) 0 = some (Row.ref n) → n ≠ x)
    (hstab : ∀ m, m ≠ x → rowId (rowAt cols' m 0) = rowId (rowAt cols m 0))
    (href : ∀ m n, m ≠ x →
      (rowAt cols' m 0 = some (Row.ref n) ↔ rowAt cols m 0 = some (Row.ref n)))
    (hcellid : ∀ m pc', m ≠ x → rowAt cols' m 0 = some (Row.cell pc') →
      ∃ pc, rowAt cols m 0 = some (Row.cell pc) ∧ pc.id = pc'.id)
    (hb : MergeBlocked cols z) : MergeBlocked cols' z := by
  constructor
  · intro n hn
    have hn' := (href (z - 1) n hz1).mp hn
    have := hb.1 n hn'
    rw [hstab z hz, hstab n (htgt n hn')]
    exact this
  · intro pc' hpc'
    obtain ⟨pc, hpc, hpcid⟩ := hcellid (z - 1) pc' hz1 hpc'
    have := hb.2 pc hpc
    rw [hstab z hz, ← hpcid]
    exact this

/-- Inversion for `rowId`: a carried id comes from a full cell. -/
theorem rowId_some_inv (r : Option Row) (i : Nat) (h : rowId r = some i) :
    ∃ c, r = some (Row.cell c) ∧ c.id = i := by
  match r with
  | none => exact Option.noConfusion h
  | some (Row.ref n) => exact Option.noConfusion h
  | some (Row.cell c) => exact ⟨c, rfl, Option.some_injective _ h⟩

/-- A successful merge step at `(x, y)` (with `x = k + 1`) advances the
inner merge invariant to row `y + 1`. -/
theorem mergeRowStep_preserves (orig : List IColumn)
    (k x y : Nat) (hx : x = k + 1) (cols cols' : List IColumn)
    (hinner : MergeInnerInv orig cols k x y)
    (hstep : mergeRowStep cols x y = some cols') :
    MergeInnerInv orig cols' k x (y + 1) := by
  obtain ⟨hlen, huntouched, hnone, href, hcell, hblocked, hfresh, hdone⟩ := hinner
  -- unified description of the successful step
  obtain ⟨t, tc, ccur, htlt, htc, hcurcell, hcurid, hcols', hprevshape⟩ :
      ∃ t tc ccur, t < x ∧ rowAt cols t y = some (Row.cell tc) ∧
        rowAt cols x y = some (Row.cell ccur) ∧ ccur.id = tc.id ∧
        cols' = accumulateInto (setRow cols x y (Row.ref t)) t y
          (ccur.selfTime, ccur.aggregateTime) ∧
        (rowAt cols (x - 1) y = some (Row.ref t) ∨ t = x - 1) := by
    cases hprev : rowAt cols (x - 1) y with
    | none => simp [mergeRowStep, hprev] at hstep
    | some r =>
      cases r with
      | ref n =>
        simp only [mergeRowStep, hprev] at hstep
        split at hstep
        case isFalse => exact Option.noConfusion hstep
        case isTrue heq =>
          obtain ⟨hx1, _, hnlt, ⟨tc, htc⟩, _⟩ := href (x - 1) y n hprev
          have htcid : rowId (rowAt cols n y) = some tc.id := by rw [htc]; rfl
          obtain ⟨ccur, hccur, hccurid⟩ := rowId_some_inv _ _ (heq.trans htcid)
          have h2 := Option.some_injective _ hstep
          rw [hccur] at h2
          exact ⟨n, tc, ccur, by omega, htc, hccur, hccurid, h2.symm, Or.inl rfl⟩
      | cell pc =>
        simp only [mergeRowStep, hprev] at hstep
        split at hstep
        case isFalse => exact Option.noConfusion hstep
        case isTrue heq =>
          obtain ⟨ccur, hccur, hccurid⟩ := rowId_some_inv _ _ heq
          have h2 := Option.some_injective _ hstep
          rw [hccur] at h2
          exact ⟨x - 1, pc, ccur, by omega, hprev, hccur, hccurid, h2.symm, Or.inr rfl⟩
  have htx : t ≠ x := Nat.ne_of_lt htlt
  have hxlen : x < cols.length := by
    by_contra h
    rw [rowAt_oob _ _ _ (Nat.le_of_not_lt h)] at hcurcell
    exact Option.noConfusion hcurcell
  have hlen' : cols'.length = cols.length := by rw [hcols']; simp
  have hrow' : ∀ z w, (z ≠ x ∨ w ≠ y) → (z ≠ t ∨ w ≠ y) →
      rowAt cols' z w = rowAt cols z w := by
    intro z w h1 h2
    rw [hcols', rowAt_accumulateInto_ne _ _ _ _ _ _ h2, rowAt_setRow_ne _ _ _ _ _ _ h1]
  have hxy' : rowAt cols' x y = some (Row.ref t) := by
    rw [hcols', rowAt_accumulateInto_ne _ _ _ _ _ _ (Or.inl (Ne.symm htx))]
    exact rowAt_setRow_eq _ _ _ _ _ hcurcell
  have hty' : rowAt cols' t y = some (Row.cell
      { tc with
        selfTime := tc.selfTime + ccur.selfTime
        aggregateTime := tc.aggregateTime + ccur.aggregateTime }) := by
    rw [hcols']
    refine rowAt_accumulateInto_cell _ _ _ _ _ ?_
    rw [rowAt_setRow_ne _ _ _ _ _ _ (Or.inl htx)]
    exact htc
  have horigx : rowAt orig x y = some (Row.cell ccur) := by
    rw [← hfresh y (Nat.le_refl y)]
    exact hcurcell
  have hcv : ∀ f : ColCell → Int, cellVal orig x y f = f ccur := by
    intro f
    rw [cellVal, horigx]
  -- the reference structure of any row changes only at `(x, y)`
  have hrefiff : ∀ w' z n, z ≠ x →
      (rowAt cols' z w' = some (Row.ref n) ↔ rowAt cols z w' = some (Row.ref n)) := by
    intro w' z n hzx
    by_cases hzt : z = t ∧ w' = y
    · rw [hzt.1, hzt.2, hty', htc]
      simp
    · rw [hrow' z w' (Or.inl hzx) (not_and_or.mp hzt)]
  constructor
  · rw [hlen']; exact hlen
  constructor
  · intro z hz hzL
    have hzs : cols'.getD z default = cols.getD z default := by
      rw [hcols', accumulateInto, listUpd_getD_ne _ _ _ _ (by omega), setRow,
        listUpd_getD_ne _ _ _ _ (by omega)]
    rw [hzs]
    exact huntouched z hz hzL
  constructor
  · intro z w
    by_cases h1 : z = x ∧ w = y
    · rw [h1.1, h1.2, hxy', horigx]
      simp
    · by_cases h2 : z = t ∧ w = y
      · rw [h2.1, h2.2, hty']
        constructor
        · intro hcontra
          exact Option.noConfusion hcontra
        · intro hcontra
          have := (hnone t y).mpr hcontra
          rw [htc] at this
          exact Option.noConfusion this
      · rw [hrow' z w (not_and_or.mp h1) (not_and_or.mp h2)]
        exact hnone z w
  constructor
  · -- back-reference structure
    intro z w n hzw
    by_cases h1 : z = x ∧ w = y
    · rw [h1.1, h1.2] at hzw ⊢
      have hnt : n = t := by
        rw [hxy'] at hzw
        have := Option.some_injective _ hzw
        simpa using this.symm
      rw [hnt]
      refine ⟨by omega, Or.inr ⟨rfl, Nat.lt_succ_self y⟩, htlt, ⟨_, hty'⟩, ?_⟩
      rcases hprevshape with hps | hps
      · left
        by_cases hx1t : x - 1 = t
        · rw [hx1t, htc] at hps
          exact absurd hps (by simp)
        · rw [hrow' (x - 1) y (Or.inl (by omega)) (Or.inl hx1t)]
          exact hps
      · right; exact hps
    · by_cases h2 : z = t ∧ w = y
      · rw [h2.1, h2.2, hty'] at hzw
        exact absurd hzw (by simp)
      · have hzw0 : rowAt cols z w = some (Row.ref n) := by
          rw [← hrow' z w (not_and_or.mp h1) (not_and_or.mp h2)]
          exact hzw
        obtain ⟨hz1, htag, hnz, ⟨c, hc⟩, hcont⟩ := href z w n hzw0
        have hnx : n ≠ x := by
          rcases htag with htag | htag <;> omega
        refine ⟨hz1, ?_, hnz, ?_, ?_⟩
        · rcases htag with htag | htag
          · exact Or.inl htag
          · exact Or.inr ⟨htag.1, by omega⟩
        · by_cases hnt : n = t ∧ w = y
          · rw [hnt.1, hnt.2]
            exact ⟨_, hty'⟩
          · refine ⟨c, ?_⟩
            rw [hrow' n w (Or.inl hnx) (not_and_or.mp hnt)]
            exact hc
        · by_cases hz1t : z - 1 = t ∧ w = y
          · rcases hcont with hcont | hcont
            · rw [hz1t.1, hz1t.2] at hcont
              rw [htc] at hcont
              exact absurd hcont (by simp)
            · right; exact hcont
          · have hz1x : ¬(z - 1 = x ∧ w = y) := by
              intro hq
              have hzx1 : z = x + 1 := by
                have h1z1 : z - 1 = x := hq.1
                omega
              rcases htag with htag | htag <;> omega
            rw [hrow' (z - 1) w (not_and_or.mp hz1x) (not_and_or.mp hz1t)]
            exact hcont
  constructor
  · -- cell accounting
    intro z w c hzw
    by_cases h1 : z = x ∧ w = y
    · rw [h1.1, h1.2, hxy'] at hzw
      exact absurd hzw (by simp)
    · by_cases h2 : z = t ∧ w = y
      · rw [h2.1, h2.2] at hzw ⊢
        rw [hty'] at hzw
        have hc : c = { tc with
            selfTime := tc.selfTime + ccur.selfTime
            aggregateTime := tc.aggregateTime + ccur.aggregateTime } := by
          simpa using (Option.some_injective _ hzw).symm
        obtain ⟨c0t, hc0t, hidt, hselft, haggt⟩ := hcell t y tc htc
        have hnotref : ∀ n, rowAt cols x y ≠ some (Row.ref n) := by
          intro n h
          rw [hcurcell] at h
          simp at h
        have hins : ∀ f : ColCell → Int, refSum orig cols' t y f =
            refSum orig cols t y f + f ccur := by
          intro f
          rw [← hcv f]
          exact refSum_insert orig cols cols' t y x f hlen' hxlen hxy' hnotref
            (fun m hm => hrefiff y m t hm)
        refine ⟨c0t, hc0t, by rw [hc]; exact hidt, ?_, ?_⟩
        · rw [hc, hins]
          have : tc.selfTime = c0t.selfTime + refSum orig cols t y (fun v => v.selfTime) :=
            hselft
          simp only []
          omega
        · rw [hc, hins]
          have : tc.aggregateTime =
              c0t.aggregateTime + refSum orig cols t y (fun v => v.aggregateTime) := haggt
          simp only []
          omega
      · have hzw0 : rowAt cols z w = some (Row.cell c) := by
          rw [← hrow' z w (not_and_or.mp h1) (not_and_or.mp h2)]
          exact hzw
        obtain ⟨c0, hc0, hid, hself, hagg⟩ := hcell z w c hzw0
        have hsame : ∀ f : ColCell → Int, refSum orig cols' z w f =
            refSum orig cols z w f := by
          intro f
          refine refSum_iff orig cols cols' z w f hlen' ?_
          intro m hm
          by_cases hmx : m = x
          · rw [hmx]
            by_cases hwy : w = y
            · have hzt : z ≠ t := by
                intro hq
                exact h2 ⟨hq, hwy⟩
              rw [hwy, hxy', hcurcell]
              simp [Ne.symm hzt]
            · rw [hrow' x w (Or.inr hwy) (Or.inr hwy)]
          · exact hrefiff w m z hmx
        exact ⟨c0, hc0, hid, by rw [hsame]; exact hself, by rw [hsame]; exact hagg⟩
  constructor
  · -- processed columns stay blocked
    intro z h1z hzk
    have hzx : z ≠ x := by omega
    have hz1x : z - 1 ≠ x := by omega
    refine mergeBlocked_transfer cols cols' z x hzx hz1x ?_ ?_ ?_ ?_ (hblocked z h1z hzk)
    · intro n hn
      obtain ⟨_, _, hnz, _, _⟩ := href (z - 1) 0 n hn
      omega
    · intro m hmx
      by_cases hmt : m = t ∧ 0 = y
      · obtain ⟨hm1, hm2⟩ := hmt
        rw [hm1]
        rw [← hm2] at hty' htc
        rw [hty', htc]
        rfl
      · rw [hrow' m 0 (Or.inl hmx) (by
          rcases not_and_or.mp hmt with h | h
          · exact Or.inl h
          · exact Or.inr h)]
    · intro m n hmx
      exact hrefiff 0 m n hmx
    · intro m pc' hmx hpc'
      by_cases hmt : m = t ∧ 0 = y
      · rw [hmt.1] at hpc' ⊢
        rw [← hmt.2] at hty' htc
        rw [hty'] at hpc'
        refine ⟨tc, htc, ?_⟩
        have heqc := Option.some_injective _ hpc'
        have hpc'eq : pc' = { tc with
            selfTime := tc.selfTime + ccur.selfTime
            aggregateTime := tc.aggregateTime + ccur.aggregateTime } := by
          simpa using heqc.symm
        rw [hpc'eq]
      · rw [hrow' m 0 (Or.inl hmx) (by
          rcases not_and_or.mp hmt with h | h
          · exact Or.inl h
          · exact Or.inr h)] at hpc'
        exact ⟨pc', hpc', rfl⟩
  constructor
  · -- untouched rows of column x
    intro w hw
    rw [hrow' x w (Or.inr (by omega)) (Or.inl (Ne.symm htx))]
    exact hfresh w (by omega)
  · -- merged rows of column x
    intro w hw
    by_cases hwy : w = y
    · rw [hwy]
      exact ⟨t, hxy'⟩
    · have hwlt : w < y := by omega
      obtain ⟨n, hn⟩ := hdone w hwlt
      refine ⟨n, ?_⟩
      rw [hrow' x w (Or.inr hwy) (Or.inl (Ne.symm htx))]
      exact hn

theorem getD_rows_length_setRow (cols : List IColumn) (x y : Nat) (r : Row) (z : Nat) :
    ((setRow cols x y r).getD z default).rows.length =
      ((cols.getD z default).rows).length := by
  by_cases hz : z = x
  · subst hz
    by_cases hlt : z < cols.length
    · rw [setRow, listUpd_getD_eq _ _ _ hlt]
      simp
    · rw [setRow, listUpd, List.set_eq_of_length_le (by omega)]
  · rw [setRow, listUpd_getD_ne _ _ _ _ hz]

theorem getD_rows_length_accumulateInto (cols : List IColumn) (t y : Nat)
    (times : Int × Int) (z : Nat) :
    ((accumulateInto cols t y times).getD z default).rows.length =
      ((cols.getD z default).rows).length := by
  by_cases hz : z = t
  · subst hz
    by_cases hlt : z < cols.length
    · rw [accumulateInto, listUpd_getD_eq _ _ _ hlt]
      simp
    · rw [accumulateInto, listUpd, List.set_eq_of_length_le (by omega)]
  · rw [accumulateInto, listUpd_getD_ne _ _ _ _ hz]

/-- A successful merge step only rewrites existing rows, so every column
keeps its row count. -/
theorem mergeRowStep_rows_length (cols cols' : List IColumn) (x y : Nat)
    (h : mergeRowStep cols x y = some cols') (z : Nat) :
    ((cols'.getD z default).rows).length = ((cols.getD z default).rows).length := by
  obtain ⟨t, r, times, hshape⟩ :
      ∃ t r times, cols' = accumulateInto (setRow cols x y r) t y times := by
    cases hprev : rowAt cols (x - 1) y with
    | none => simp [mergeRowStep, hprev] at h
    | some r0 =>
      cases r0 with
      | ref n =>
        simp only [mergeRowStep, hprev] at h
        split at h
        case isFalse => exact Option.noConfusion h
        case isTrue => exact ⟨n, Row.ref n, _, (Option.some_injective _ h).symm⟩
      | cell pc =>
        simp only [mergeRowStep, hprev] at h
        split at h
        case isFalse => exact Option.noConfusion h
        case isTrue => exact ⟨x - 1, Row.ref (x - 1), _, (Option.some_injective _ h).symm⟩
  rw [hshape, getD_rows_length_accumulateInto, getD_rows_length_setRow]

/-- If a column has no row at an index, that `rowAt` is `none`. -/
theorem rowAt_none_of_rows_le (cols : List IColumn) (x y : Nat)
    (h : (cols.getD x default).rows.length ≤ y) : rowAt cols x y = none := by
  by_cases hx : x < cols.length
  · rw [rowAt_eq_getD _ _ _ hx, List.getElem?_eq_none h]
  · exact rowAt_oob _ _ _ (Nat.le_of_not_lt hx)

/-- Converting the inner invariant back to the outer one at the end of a
column's merge. -/
theorem innerInv_to_mergeInv (orig cols : List IColumn) (k x y : Nat) (hx : x = k + 1)
    (hinner : MergeInnerInv orig cols k x y) (hblockx : MergeBlocked cols x) :
    MergeInv orig cols (k + 1) := by
  obtain ⟨hlen, huntouched, hnone, href, hcell, hblocked, hfresh, hdone⟩ := hinner
  refine ⟨hlen, ?_, hnone, ?_, hcell, ?_⟩
  · intro z hz hzL
    exact huntouched z (by omega) hzL
  · intro z w n hzw
    obtain ⟨h1z, htag, hnz, hc, hcont⟩ := href z w n hzw
    refine ⟨h1z, ?_, hnz, hc, hcont⟩
    rcases htag with htag | htag <;> omega
  · intro z h1z hzk
    by_cases hzx : z = x
    · subst hzx
      exact hblockx
    · exact hblocked z h1z (by omega)

/-- The merge of one whole column advances the outer invariant by one. -/
theorem mergeRowsAux_inv (orig : List IColumn) (k x : Nat) (hx : x = k + 1) :
    ∀ (f y : Nat) (cols : List IColumn),
      MergeInnerInv orig cols k x y →
      (cols.getD x default).rows.length ≤ f + y →
      MergeInv orig (mergeRowsAux x f y cols) (k + 1) := by
  intro f
  induction f with
  | zero =>
    intro y cols hinner hcover
    have hblockx : MergeBlocked cols x := by
      cases y with
      | zero =>
        refine mergeBlocked_of_rowId_none cols x ?_ ?_
        · rw [rowAt_none_of_rows_le cols x 0 (by omega)]
          rfl
        · intro n hn
          exact (hinner.2.2.2.1 (x - 1) 0 n hn).2.2.2.1
      | succ y0 =>
        obtain ⟨n, hn⟩ := hinner.2.2.2.2.2.2.2 0 (Nat.succ_pos y0)
        refine mergeBlocked_of_rowId_none cols x ?_ ?_
        · rw [hn]
          rfl
        · intro m hm
          exact (hinner.2.2.2.1 (x - 1) 0 m hm).2.2.2.1
    exact innerInv_to_mergeInv orig cols k x y hx hinner hblockx
  | succ f ih =>
    intro y cols hinner hcover
    cases hstep : mergeRowStep cols x y with
    | none =>
      have hblockx : MergeBlocked cols x := by
        cases y with
        | zero => exact mergeBlocked_of_step_none cols x hstep
        | succ y0 =>
          obtain ⟨n, hn⟩ := hinner.2.2.2.2.2.2.2 0 (Nat.succ_pos y0)
          refine mergeBlocked_of_rowId_none cols x ?_ ?_
          · rw [hn]
            rfl
          · intro m hm
            exact (hinner.2.2.2.1 (x - 1) 0 m hm).2.2.2.1
      have hres : mergeRowsAux x (f + 1) y cols = cols := by
        simp [mergeRowsAux, hstep]
      rw [hres]
      exact innerInv_to_mergeInv orig cols k x y hx hinner hblockx
    | some cols' =>
      have hinner' := mergeRowStep_preserves orig k x y hx cols cols' hinner hstep
      have hcover' : (cols'.getD x default).rows.length ≤ f + (y + 1) := by
        rw [mergeRowStep_rows_length cols cols' x y hstep]
        omega
      have hres : mergeRowsAux x (f + 1) y cols = mergeRowsAux x f (y + 1) cols' := by
        simp [mergeRowsAux, hstep]
      rw [hres]
      exact ih (y + 1) cols' hinner' hcover'

/-- Entering column `x = k + 1` turns the outer invariant into the inner one
at row `0`. -/
theorem mergeInv_to_innerInv (orig cols : List IColumn) (k : Nat)
    (h : MergeInv orig cols k) : MergeInnerInv orig cols k (k + 1) 0 := by
  obtain ⟨hlen, huntouched, hnone, href, hcell, hblocked⟩ := h
  refine ⟨hlen, ?_, hnone, ?_, hcell, hblocked, ?_, ?_⟩
  · intro z hz hzL
    exact huntouched z (by omega) hzL
  · intro z w n hzw
    obtain ⟨h1, h2, h3, h4, h5⟩ := href z w n hzw
    exact ⟨h1, Or.inl h2, h3, h4, h5⟩
  · intro w _
    by_cases hx : k + 1 < orig.length
    · have hcol := huntouched (k + 1) (by omega) hx
      have ho : k + 1 < cols.length := by omega
      rw [rowAt_eq_getD _ _ _ ho, rowAt_eq_getD _ _ _ hx, hcol]
    · rw [rowAt_oob _ _ _ (by omega), rowAt_oob _ _ _ (by omega)]
  · intro w hw
    omega

/-- When no column back-references `w` at row `y`, the accumulated
contribution is zero. -/
theorem refSum_of_no_refs (orig cols : List IColumn) (w y : Nat) (f : ColCell → Int)
    (h : ∀ z, rowAt cols z y ≠ some (Row.ref w)) :
    refSum orig cols w y f = 0 := by
  rw [refSum]
  have hempty : (Finset.range cols.length).filter
      (fun z => rowAt cols z y = some (Row.ref w)) = ∅ := by
    apply Finset.filter_eq_empty_iff.mpr
    intro z _
    exact h z
  rw [hempty, Finset.sum_empty]

/-- The merge invariant holds before any column is processed, provided the
phase-1 rows are all full cells. -/
theorem mergeInv_base (orig : List IColumn)
    (horig : ∀ z w r, rowAt orig z w = some r → ∃ c, r = Row.cell c) :
    MergeInv orig orig 0 := by
  have hnr : ∀ w' y' z, rowAt orig z y' ≠ some (Row.ref w') := by
    intro w' y' z hz
    obtain ⟨c', hc'⟩ := horig z y' _ hz
    exact Row.noConfusion hc'
  refine ⟨rfl, fun z _ _ => rfl, fun x y => Iff.rfl, ?_, ?_, ?_⟩
  · intro x y n hxy
    exact absurd hxy (hnr n y x)
  · intro x y c hxy
    refine ⟨c, hxy, rfl, ?_, ?_⟩
    · rw [refSum_of_no_refs _ _ _ _ _ (hnr x y)]
      omega
    · rw [refSum_of_no_refs _ _ _ _ _ (hnr x y)]
      omega
  · intro x h1 h0
    omega

/-- The outer merge fold, processing columns `k+1 … k+n`, advances the outer
invariant from `k` to `k + n`. -/
theorem mergeColumns_fold_inv (orig : List IColumn) :
    ∀ (n k : Nat) (cols : List IColumn), MergeInv orig cols k →
      MergeInv orig ((List.range' (k + 1) n).foldl
        (fun acc x => mergeRowsAux x (acc.getD x default).rows.length 0 acc) cols)
        (k + n) := by
  intro n
  induction n with
  | zero =>
    intro k cols h
    simpa using h
  | succ n ih =>
    intro k cols h
    rw [List.range'_succ, List.foldl_cons]
    have h1 : MergeInv orig
        (mergeRowsAux (k + 1) ((cols.getD (k + 1) default).rows.length) 0 cols) (k + 1) :=
      mergeRowsAux_inv orig k (k + 1) rfl _ 0 cols (mergeInv_to_innerInv orig cols k h)
        (by omega)
    have h2 := ih (k + 1) _ h1
    have hkn : k + (n + 1) = (k + 1) + n := by omega
    rw [hkn]
    exact h2

theorem range_drop_one (L : Nat) : (List.range L).drop 1 = List.range' 1 (L - 1) := by
  cases L with
  | zero => rfl
  | succ m =>
    rw [List.range_eq_range', List.range'_succ]
    simp

/-- The horizontal merge phase establishes the invariant for every column. -/
theorem mergeColumns_inv (orig : List IColumn)
    (horig : ∀ z w r, rowAt orig z w = some r → ∃ c, r = Row.cell c) :
    MergeInv orig (mergeColumns orig) (orig.length - 1) := by
  have h := mergeColumns_fold_inv orig (orig.length - 1) 0 orig (mergeInv_base orig horig)
  rw [mergeColumns, range_drop_one]
  simpa using h

/-- Invariants over the list component of a fold that threads extra state. -/
theorem foldl_pair_inv {α β γ : Type} (P : α → Prop) (F : List α × β → γ → List α × β)
    (hF : ∀ st i, (∀ a ∈ st.1, P a) → ∀ a ∈ (F st i).1, P a) :
    ∀ (is : List γ) (st : List α × β), (∀ a ∈ st.1, P a) →
      ∀ a ∈ (is.foldl F st).1, P a := by
  intro is
  induction is with
  | nil =>
    intro st h
    exact h
  | cons i is ih =>
    intro st h
    exact ih (F st i) (hF st i h)

/-- The ancestor walk never shrinks its accumulator. -/
theorem stackRows_len (model : IProfileModel) (s : Int) :
    ∀ (fuel : Nat) (idOpt : Option Nat) (gid : Nat) (rows : List ColCell),
      rows.length ≤ (stackRows model s fuel idOpt gid rows).1.length := by
  intro fuel
  induction fuel with
  | zero =>
    intro idOpt gid rows
    exact Nat.le_refl _
  | succ fuel ih =>
    intro idOpt gid rows
    cases idOpt with
    | none => exact Nat.le_refl _
    | some id =>
      simp only [stackRows]
      split
      · exact Nat.le_trans (Nat.le_succ _) (ih _ _ (_ :: rows))
      · exact Nat.le_refl _

theorem stackRows_ne_nil (model : IProfileModel) (s : Int) (fuel : Nat)
    (idOpt : Option Nat) (gid : Nat) (c : ColCell) (rows : List ColCell) :
    (stackRows model s fuel idOpt gid (c :: rows)).1 ≠ [] := by
  intro h
  have hl := stackRows_len model s fuel idOpt gid (c :: rows)
  rw [h] at hl
  simp at hl

/-- Every phase-1 column consists of full-cell rows and is nonempty (the
leaf row is always present). -/
theorem buildInitialColumns_facts (model : IProfileModel) :
    ∀ col ∈ buildInitialColumns model,
      (∃ l, col.rows = List.map Row.cell l) ∧ col.rows ≠ [] := by
  rw [buildInitialColumns]
  refine foldl_pair_inv _ _ ?_ _ _ ?_
  · intro st i h a ha
    rcases List.mem_append.mp ha with h1 | h1
    · exact h a h1
    · rw [List.mem_singleton] at h1
      subst h1
      refine ⟨⟨_, rfl⟩, ?_⟩
      intro hemp
      exact stackRows_ne_nil model _ _ _ _ _ _ (List.map_eq_nil_iff.mp hemp)
  · intro a ha
    exact absurd ha (List.not_mem_nil a)

theorem buildInitialColumns_rows_cells (model : IProfileModel) :
    ∀ z w r, rowAt (buildInitialColumns model) z w = some r → ∃ c, r = Row.cell c := by
  intro z w r h
  rw [rowAt] at h
  obtain ⟨col, hz, hw⟩ := Option.bind_eq_some.mp h
  have hmem : col ∈ buildInitialColumns model := List.getElem?_mem hz
  obtain ⟨⟨l, hl⟩, _⟩ := buildInitialColumns_facts model col hmem
  have hr : r ∈ col.rows := List.getElem?_mem hw
  rw [hl] at hr
  obtain ⟨c, _, hc⟩ := List.mem_map.mp hr
  exact ⟨c, hc.symm⟩

theorem buildInitialColumns_row0 (model : IProfileModel) (z : Nat)
    (hz : z < (buildInitialColumns model).length) :
    rowAt (buildInitialColumns model) z 0 ≠ none := by
  intro hnone
  rw [rowAt_eq_getD _ _ _ hz] at hnone
  have hlen := List.getElem?_eq_none_iff.mp hnone
  have hmem : (buildInitialColumns model).getD z default ∈ buildInitialColumns model := by
    rw [List.getD_eq_getElem _ _ hz]
    exact List.getElem_mem _
  obtain ⟨_, hne⟩ := buildInitialColumns_facts model _ hmem
  exact hne (List.length_eq_zero.mp (by omega))

/-- The merge invariant, specialised to `buildColumns`. -/
theorem buildColumns_inv (model : IProfileModel) :
    MergeInv (buildInitialColumns model) (buildColumns model)
      ((buildInitialColumns model).length - 1) :=
  mergeColumns_inv _ (buildInitialColumns_rows_cells model)

theorem mergeRowStep_none_of_blocked (cols : List IColumn) (x : Nat)
    (h : MergeBlocked cols x) : mergeRowStep cols x 0 = none := by
  cases hprev : rowAt cols (x - 1) 0 with
  | none => simp [mergeRowStep, hprev]
  | some r =>
    cases r with
    | ref n =>
      simp only [mergeRowStep, hprev]
      rw [if_neg (h.1 n hprev)]
    | cell pc =>
      simp only [mergeRowStep, hprev]
      rw [if_neg (h.2 pc hprev)]

theorem mergeRowsAux_id_of_blocked (cols : List IColumn) (x f : Nat)
    (h : MergeBlocked cols x) : mergeRowsAux x f 0 cols = cols := by
  cases f with
  | zero => rfl
  | succ f => simp [mergeRowsAux, mergeRowStep_none_of_blocked cols x h]

theorem mergeFoldl_id_of (l : List Nat) (cols : List IColumn)
    (h : ∀ x ∈ l, mergeRowsAux x ((cols.getD x default).rows.length) 0 cols = cols) :
    l.foldl (fun acc x => mergeRowsAux x (acc.getD x default).rows.length 0 acc) cols
      = cols := by
  revert h
  induction l with
  | nil =>
    intro _
    rfl
  | cons a l ih =>
    intro h
    rw [List.foldl_cons, h a (List.mem_cons_self a l)]
    exact ih (fun x hx => h x (List.mem_cons_of_mem a hx))

/-! ## C7: the merged-column invariant -/

/-- C7: in the column list returned by `buildColumns`, every back-reference
at row `y` of column `x` points to a column `n < x` whose row `y` is a full
cell, and every full cell that remains accounts for the column's own phase-1
value plus the phase-1 values of every column whose row `y` back-references
it (the columns the cell represents at that row). -/
theorem flame_merge_invariant (model : IProfileModel) :
    (∀ x y n, rowAt (buildColumns model) x y = some (Row.ref n) →
      n < x ∧ ∃ c, rowAt (buildColumns model) n y = some (Row.cell c)) ∧
    (∀ x y c, rowAt (buildColumns model) x y = some (Row.cell c) →
      ∃ c0, rowAt (buildInitialColumns model) x y = some (Row.cell c0) ∧
        c.selfTime = c0.selfTime +
          refSum (buildInitialColumns model) (buildColumns model) x y
            (fun v => v.selfTime) ∧
        c.aggregateTime = c0.aggregateTime +
          refSum (buildInitialColumns model) (buildColumns model) x y
            (fun v => v.aggregateTime)) := by
  obtain ⟨_, _, _, href, hcell, _⟩ := buildColumns_inv model
  constructor
  · intro x y n h
    obtain ⟨_, _, h3, h4, _⟩ := href x y n h
    exact ⟨h3, h4⟩
  · intro x y c h
    obtain ⟨c0, h1, _, h3, h4⟩ := hcell x y c h
    exact ⟨c0, h1, h3, h4⟩

/-- On the scenario model the second column's row 0 back-references column 0,
and the theorem instantiated there yields the cell it resolves to. -/
theorem flame_merge_invariant_witness :
    0 < 1 ∧ ∃ c, rowAt (buildColumns exScenarioModel) 0 0 = some (Row.cell c) :=
  (flame_merge_invariant exScenarioModel).1 1 0 0 (by decide)

/-! ## C8: idempotence of the horizontal merge -/

/-- C8: re-running the horizontal merge phase on the column list already
produced by `buildColumns` changes nothing: every processed column is blocked
at row 0, so each inner loop breaks immediately. -/
theorem merge_idempotent (model : IProfileModel) :
    mergeColumns (buildColumns model) = buildColumns model := by
  obtain ⟨hlen, _, _, _, _, hblocked⟩ := buildColumns_inv model
  rw [mergeColumns, range_drop_one]
  apply mergeFoldl_id_of
  intro x hx
  rw [List.mem_range'_1] at hx
  apply mergeRowsAux_id_of_blocked
  apply hblocked x hx.1
  omega

theorem set_getD_true (v : List Bool) (x z : Nat) (h : v.getD z false = true) :
    (v.set x true).getD z false = true := by
  by_cases hz : z = x
  · subst hz
    by_cases hlt : z < v.length
    · rw [List.getD_eq_getElem?_getD, List.getElem?_set_eq_of_lt _ hlt]
      rfl
    · rw [List.set_eq_of_length_le (Nat.le_of_not_lt hlt)]
      exact h
  · rw [List.getD_eq_getElem?_getD, List.getElem?_set_ne (Ne.symm hz),
      ← List.getD_eq_getElem?_getD]
    exact h

theorem set_getD_self_true (v : List Bool) (x : Nat) (hx : x < v.length) :
    (v.set x true).getD x false = true := by
  rw [List.getD_eq_getElem?_getD, List.getElem?_set_eq_of_lt _ hx]
  rfl

theorem markRun_length (columns : List IColumn) (ax ay : Nat) :
    ∀ (f x : Nat) (v : List Bool), (markRun columns ax ay f x v).length = v.length := by
  intro f
  induction f with
  | zero =>
    intro x v
    rfl
  | succ f ih =>
    intro x v
    simp only [markRun]
    split
    · rw [ih, List.length_set]
    · rfl

theorem markRun_getD_mono (columns : List IColumn) (ax ay z : Nat) :
    ∀ (f x : Nat) (v : List Bool), v.getD z false = true →
      (markRun columns ax ay f x v).getD z false = true := by
  intro f
  induction f with
  | zero =>
    intro x v h
    exact h
  | succ f ih =>
    intro x v h
    simp only [markRun]
    split
    · exact ih _ _ (set_getD_true v x z h)
    · exact h

/-- The bounds-checked marking loop of `getFilteredColumns` marks every
column of a contiguous back-reference run. -/
theorem markRun_marks (columns : List IColumn) (a z : Nat) (hz : z < columns.length) :
    ∀ (f x : Nat) (v : List Bool),
      (∀ u, x ≤ u → u ≤ z → rowAt columns u 0 = some (Row.ref a)) →
      x ≤ z → z - x < f → v.length = columns.length →
      (markRun columns a 0 f x v).getD z false = true := by
  intro f
  induction f with
  | zero =>
    intro x v _ hxz hfuel _
    omega
  | succ f ih =>
    intro x v hrun hxz hfuel hvlen
    have hx : x < columns.length := by omega
    have hcond : x < columns.length ∧ rowAt columns x 0 = some (Row.ref a) :=
      ⟨hx, hrun x (Nat.le_refl x) hxz⟩
    simp only [markRun]
    rw [if_pos hcond]
    by_cases hxeq : x = z
    · subst hxeq
      apply markRun_getD_mono
      exact set_getD_self_true v x (by omega)
    · apply ih (x + 1) (v.set x true) (fun u hu1 hu2 => hrun u (by omega) hu2)
        (by omega) (by omega)
      rw [List.length_set]
      exact hvlen

theorem accessorsFold_mono (columns : List IColumn) (z : Nat) :
    ∀ (as : List LocationAccessor) (v : List Bool), v.getD z false = true →
      (as.foldl (fun v a =>
        markRun columns a.x a.y columns.length (a.x + 1) (v.set a.x true)) v).getD z false
        = true := by
  intro as
  induction as with
  | nil =>
    intro v h
    exact h
  | cons a as ih =>
    intro v h
    rw [List.foldl_cons]
    exact ih _ (markRun_getD_mono columns a.x a.y z columns.length (a.x + 1) _
      (set_getD_true v a.x z h))

theorem accessorsFold_of_mem (columns : List IColumn) (z : Nat) (a0 : LocationAccessor)
    (hstep : ∀ v : List Bool, v.length = columns.length →
      (markRun columns a0.x a0.y columns.length (a0.x + 1) (v.set a0.x true)).getD z false
        = true) :
    ∀ (as : List LocationAccessor) (v : List Bool), a0 ∈ as → v.length = columns.length →
      (as.foldl (fun v a =>
        markRun columns a.x a.y columns.length (a.x + 1) (v.set a.x true)) v).getD z false
        = true := by
  intro as
  induction as with
  | nil =>
    intro v h _
    exact absurd h (List.not_mem_nil a0)
  | cons a as ih =>
    intro v hmem hvlen
    rw [List.foldl_cons]
    rcases List.mem_cons.mp hmem with heq | hmem2
    · subst heq
      apply accessorsFold_mono
      exact hstep v hvlen
    · apply ih _ hmem2
      rw [markRun_length, List.length_set]
      exact hvlen

/-- Membership in a fold that appends designated elements. -/
theorem foldl_mem_of {α β : Type} (g : List α → β → List α) (A : α) (a : β)
    (hmono : ∀ acc b, A ∈ acc → A ∈ g acc b)
    (hadd : ∀ acc, A ∈ g acc a) :
    ∀ (l : List β) (acc : List α), (a ∈ l ∨ A ∈ acc) → A ∈ l.foldl g acc := by
  intro l
  induction l with
  | nil =>
    intro acc hmem
    rcases hmem with h1 | h1
    · exact absurd h1 (List.not_mem_nil a)
    · exact h1
  | cons b l ih =>
    intro acc hmem
    rw [List.foldl_cons]
    rcases hmem with h1 | h1
    · rcases List.mem_cons.mp h1 with heq | h2
      · subst heq
        exact ih (g acc a) (Or.inr (hadd acc))
      · exact ih _ (Or.inl h2)
    · exact ih _ (Or.inr (hmono acc b h1))

/-- Every column whose row 0 is a full cell yields a root accessor. -/
theorem rootAccessors_mem (columns : List IColumn) (a : Nat) (c : ColCell)
    (h : rowAt columns a 0 = some (Row.cell c)) (ha : a < columns.length) :
    ({ model := columns, x := a, y := 0, cell := c } : LocationAccessor)
      ∈ rootAccessors columns := by
  rw [rootAccessors]
  refine foldl_mem_of _ _ a ?_ ?_ _ _ (Or.inl (List.mem_range.mpr ha))
  · intro acc b hA
    cases hb : rowAt columns b 0 with
    | none =>
      simp only [hb]
      exact hA
    | some r =>
      cases r with
      | cell c2 =>
        simp only [hb]
        exact List.mem_append.mpr (Or.inl hA)
      | ref n =>
        simp only [hb]
        exact hA
  · intro acc
    simp only [h]
    exact List.mem_append.mpr (Or.inr (List.mem_singleton.mpr rfl))

/-- Back-reference runs at row 0 are downward closed above their target:
left-contiguity propagates a reference from any column back to `n + 1`. -/
theorem refs_run_down (cols : List IColumn) (n : Nat)
    (hcnt : ∀ w, rowAt cols w 0 = some (Row.ref n) →
      (rowAt cols (w - 1) 0 = some (Row.ref n) ∨ n = w - 1) ∧ n < w) :
    ∀ w, rowAt cols w 0 = some (Row.ref n) →
      ∀ u, n < u → u ≤ w → rowAt cols u 0 = some (Row.ref n) := by
  intro w
  induction w with
  | zero =>
    intro _ u hu1 hu2
    omega
  | succ w ih =>
    intro hw u hu1 hu2
    by_cases huw : u = w + 1
    · rw [huw]
      exact hw
    · obtain ⟨hc, hnw⟩ := hcnt (w + 1) hw
      rcases hc with hc | hc
      · exact ih hc u hu1 (by omega)
      · omega

/-- Every column of `buildColumns` output is marked by the root-accessor
sweep: cell columns by their own accessor, back-reference columns by their
target's accessor walking the contiguous run. -/
theorem buildColumns_validX (model : IProfileModel) (z : Nat)
    (hz : z < (buildColumns model).length) :
    ((rootAccessors (buildColumns model)).foldl
        (fun v a => markRun (buildColumns model) a.x a.y (buildColumns model).length
          (a.x + 1) (v.set a.x true))
        (List.replicate (buildColumns model).length false)).getD z false = true := by
  obtain ⟨hlen, _, hnone, href, _, _⟩ := buildColumns_inv model
  have hz0 : rowAt (buildColumns model) z 0 ≠ none := by
    intro hcontra
    exact buildInitialColumns_row0 model z (by omega) ((hnone z 0).mp hcontra)
  cases hr : rowAt (buildColumns model) z 0 with
  | none => exact absurd hr hz0
  | some r =>
    cases r with
    | cell c =>
      refine accessorsFold_of_mem _ z _ ?_ _ _ (rootAccessors_mem _ z c hr hz)
        (List.length_replicate _ _)
      intro v hvlen
      apply markRun_getD_mono
      exact set_getD_self_true v z (by omega)
    | ref n =>
      obtain ⟨h1z, _, hnz, ⟨c, hc⟩, _⟩ := href z 0 n hr
      have hcnt : ∀ w, rowAt (buildColumns model) w 0 = some (Row.ref n) →
          (rowAt (buildColumns model) (w - 1) 0 = some (Row.ref n) ∨ n = w - 1) ∧
            n < w := by
        intro w hw
        obtain ⟨_, _, h3, _, h5⟩ := href w 0 n hw
        exact ⟨h5, h3⟩
      have hrun := refs_run_down (buildColumns model) n hcnt z hr
      refine accessorsFold_of_mem _ z _ ?_ _ _ (rootAccessors_mem _ n c hc (by omega))
        (List.length_replicate _ _)
      intro v hvlen
      exact markRun_marks (buildColumns model) n z hz (buildColumns model).length (n + 1)
        (v.set n true) (fun u hu1 hu2 => hrun u (by omega) hu2) (by omega) (by omega)
        (by rw [List.length_set]; exact hvlen)

/-- The rebuild fold of `getFilteredColumns` copies the columns verbatim when
the step never drops a column. -/
theorem rebuild_fold_take (columns : List IColumn)
    (g : Nat × List IColumn → Nat → Nat × List IColumn)
    (hg : ∀ st x, x < columns.length → st.1 = 0 →
      g st x = (0, st.2 ++ [columns.getD x default])) :
    ∀ n, n ≤ columns.length →
      (List.range n).foldl g (0, []) = (0, columns.take n) := by
  intro n
  induction n with
  | zero =>
    intro _
    rfl
  | succ n ih =>
    intro hn
    have hn' : n < columns.length := by omega
    rw [List.range_succ, List.foldl_append, List.foldl_cons, List.foldl_nil,
      ih (by omega), hg (0, columns.take n) n hn' rfl]
    have hl : columns.take n ++ [columns.getD n default] = columns.take (n + 1) := by
      rw [List.take_succ, List.getElem?_eq_getElem hn', List.getD_eq_getElem _ _ hn']
      rfl
    exact congrArg (Prod.mk 0) hl

theorem rebuild_fold_id (columns : List IColumn)
    (g : Nat × List IColumn → Nat → Nat × List IColumn)
    (hg : ∀ st x, x < columns.length → st.1 = 0 →
      g st x = (0, st.2 ++ [columns.getD x default])) :
    ((List.range columns.length).foldl g (0, [])).2 = columns := by
  rw [rebuild_fold_take columns g hg columns.length (Nat.le_refl _)]
  exact List.take_length columns

/-! ## C9: the filtered-column round trip -/

/-- C9: filtering a merged column list by the complete set of root accessors
returns it unchanged: every column's row 0 is a cell (marked by its own
accessor) or a back-reference (marked by its target's accessor walking the
contiguous run), so no column is dropped and the re-offset never fires. -/
theorem filtered_roundtrip (model : IProfileModel) :
    getFilteredColumns (buildColumns model) (rootAccessors (buildColumns model))
      = buildColumns model := by
  rw [getFilteredColumns]
  refine rebuild_fold_id (buildColumns model) _ ?_
  intro st x hx h0
  have hv := buildColumns_validX model x hx
  simp only [List.getD_eq_getElem?_getD] at hv
  simp [hv, h0]

end ProfileCore
